import Mathlib

/-!
Verification of the Cheerp StoreMerging pass
(`llvm/lib/CheerpUtils/StoreMerging.cpp`).

The development shallowly embeds the pass: LLVM types and SSA values are
modelled by inductive types, a basic block is a list of instructions, and
every function of the pass (`findBasePointerAndOffset`, `sortStores`,
`filterAlreadyProcessedStores`, both overloads of `processBlockOfStores`,
`runOnBasicBlock`, `runOnFunction`) is translated to an executable Lean
function.  IRBuilder calls are modelled by `create*` functions that fold
integer-constant operands (as the LLVM constant folder does) and otherwise
emit an instruction into the stream.
-/

namespace StoreMerging

/-- LLVM types, restricted to the shapes the pass inspects: integer types of
a given bit width, the three scalar floating types, pointers (modelled
opaquely, without a pointee type), and vectors. -/
inductive Ty where
  | integer (bits : Nat)
  | float
  | double
  | half
  | pointer
  | vector (elem : Ty) (n : Nat)
deriving DecidableEq, Repr

/-- `Type::isFloatTy`: matches exactly the 32-bit `float` type. -/
def Ty.isFloatTy : Ty → Bool
  | .float => true
  | _ => false

/-- `Type::isVectorTy`. -/
def Ty.isVectorTy : Ty → Bool
  | .vector _ _ => true
  | _ => false

/-- `Type::isPointerTy`. -/
def Ty.isPointerTy : Ty → Bool
  | .pointer => true
  | _ => false

/-- `Type::isIntegerTy`. -/
def Ty.isIntegerTy : Ty → Bool
  | .integer _ => true
  | _ => false

/-- `DataLayout::getTypeAllocSize`, in bytes, for a 32-bit pointer target. -/
def getTypeAllocSize : Ty → Nat
  | .integer bits => (bits + 7) / 8
  | .float => 4
  | .double => 8
  | .half => 2
  | .pointer => 4
  | .vector e n => n * getTypeAllocSize e

/-- The primitive bit width of a type (`Type::getPrimitiveSizeInBits`),
used to express validity of a `bitcast`, which in LLVM requires equal bit
widths on both sides. -/
def bitWidthOf : Ty → Nat
  | .integer bits => bits
  | .float => 32
  | .double => 64
  | .half => 16
  | .pointer => 32
  | .vector e n => n * bitWidthOf e

/-- SSA values.  `constInt bits n` is a `ConstantInt` of type `iN` holding
`n`; `constFP t p` is a floating-point constant of type `t` with bit
pattern `p`; `arg` is an opaque non-constant value (function argument or an
instruction the pass does not inspect); the remaining constructors are the
instruction shapes the pass either looks through (`gepConst`, `gepOther`,
`bitcastI`) or creates (`ptrToIntI`, `zextI`, `shlI`, `addI`). -/
inductive Value where
  | constInt (bits : Nat) (n : Nat)
  | constFP (t : Ty) (bitsPattern : Nat)
  | arg (t : Ty) (id : Nat)
  | gepConst (base : Value) (byteOff : Int)
  | gepOther (base : Value) (id : Nat)
  | bitcastI (src : Value) (t : Ty)
  | ptrToIntI (src : Value) (bits : Nat)
  | zextI (src : Value) (bits : Nat)
  | shlI (src : Value) (amt : Nat)
  | addI (a b : Value)
deriving DecidableEq, Repr

/-- `Value::getType`. -/
def Value.ty : Value → Ty
  | .constInt bits _ => .integer bits
  | .constFP t _ => t
  | .arg t _ => t
  | .gepConst _ _ => .pointer
  | .gepOther _ _ => .pointer
  | .bitcastI _ t => t
  | .ptrToIntI _ bits => .integer bits
  | .zextI _ bits => .integer bits
  | .shlI s _ => s.ty
  | .addI a _ => a.ty

/-- `dyn_cast<Constant>(v) != nullptr`. -/
def Value.isConstantV : Value → Bool
  | .constInt _ _ => true
  | .constFP _ _ => true
  | _ => false

/-- `Constant::isNullValue`: an all-zero-bits constant. -/
def Value.isNullValue : Value → Bool
  | .constInt _ n => n == 0
  | .constFP _ p => p == 0
  | _ => false

/-- A store instruction payload: pointer operand, value operand, alignment
in bytes.  The surrounding `Instr.store` carries the identity. -/
structure StoreData where
  ptr : Value
  val : Value
  align : Nat
deriving DecidableEq, Repr

/-- One instruction of a basic block.  `store sid sd` is a store with
identity `sid` (modelling `StoreInst*` pointer identity); `other effect`
is any non-store instruction, where `effect` records
`mayReadOrWriteMemory() || mayHaveSideEffects()`. -/
inductive Instr where
  | store (sid : Nat) (sd : StoreData)
  | other (effect : Bool)
deriving DecidableEq, Repr

/-- Whether an instruction is the store with identity `sid`. -/
def Instr.isStoreWithId (sid : Nat) : Instr → Bool
  | .store s _ => s == sid
  | _ => false

/-! ### IRBuilder operations

Each returns the resulting value together with the list of instructions
inserted into the block (empty when the folder produced a constant). -/

/-- `IRBuilder::CreateZExt`; folds a `ConstantInt` operand. -/
def createZExt (v : Value) (bits : Nat) : Value × List Instr :=
  match v with
  | .constInt _ n => (.constInt bits n, [])
  | v => (.zextI v bits, [.other false])

/-- `IRBuilder::CreatePtrToInt` to an integer of width `bits`. -/
def createPtrToInt (v : Value) (bits : Nat) : Value × List Instr :=
  (.ptrToIntI v bits, [.other false])

/-- `IRBuilder::CreateBitCast`; the identity cast folds away. -/
def createBitCast (v : Value) (t : Ty) : Value × List Instr :=
  if v.ty = t then (v, []) else (.bitcastI v t, [.other false])

/-- `IRBuilder::CreateShl` by a constant amount; folds a `ConstantInt`. -/
def createShl (v : Value) (amt : Nat) : Value × List Instr :=
  match v with
  | .constInt bits n => (.constInt bits ((n <<< amt) % 2 ^ bits), [])
  | v => (.shlI v amt, [.other false])

/-- `IRBuilder::CreateAdd`; folds two `ConstantInt` operands. -/
def createAdd (a b : Value) : Value × List Instr :=
  match a, b with
  | .constInt bits x, .constInt _ y => (.constInt bits ((x + y) % 2 ^ bits), [])
  | a, b => (.addI a b, [.other false])

/-- The `convertToBigType` lambda of `processBlockOfStores(uint32_t, ...)`
(StoreMerging.cpp lines 210-226): pointers go through `ptrtoint` to `i32`;
other non-integer types are bitcast to
`IntegerType::get(ctx, DL->getTypeAllocSize(type))` - note that the source
passes the byte alloc size where a bit width is expected; the result is
then zero-extended to `bigType` (`bigBits` bits) unless it already has that
type. -/
def convertStep1 (value : Value) : Value × List Instr :=
  if value.ty.isPointerTy then createPtrToInt value 32
  else if ¬ value.ty.isIntegerTy then
    createBitCast value (.integer (getTypeAllocSize value.ty))
  else (value, [])

/-- The zero-extension half of `convertToBigType`: extend to `bigBits`
bits unless the value already has that type. -/
def convertToBigType (bigBits : Nat) (value : Value) : Value × List Instr :=
  let s1 := convertStep1 value
  let s2 :=
    if s1.1.ty ≠ .integer bigBits then createZExt s1.1 bigBits
    else (s1.1, [])
  (s2.1, s1.2 ++ s2.2)

/-- The `STRATEGY` enumeration of `processBlockOfStores(uint32_t, ...)`. -/
inductive STRATEGY where
  | NOT_CONVENIENT
  | CONSTANT
  | ZERO_EXTEND
deriving DecidableEq, Repr

/-- Strategy selection (StoreMerging.cpp lines 190-198): both operands
constant selects `CONSTANT`; otherwise a null high constant selects
`ZERO_EXTEND`. -/
def selectStrategy (lowValue highValue : Value) : STRATEGY :=
  if lowValue.isConstantV && highValue.isConstantV then .CONSTANT
  else if highValue.isConstantV && highValue.isNullValue then .ZERO_EXTEND
  else .NOT_CONVENIENT

/-- The value-synthesis block (StoreMerging.cpp lines 228-244).  The
`none` result models the `assert(false)` branch taken when neither valid
strategy was selected. -/
def buildMergedValue (strategy : STRATEGY) (dim : Nat)
    (lowValue highValue : Value) : Option (Value × List Instr) :=
  match strategy with
  | .NOT_CONVENIENT => none
  | .CONSTANT =>
    let c1 := convertToBigType (dim * 16) lowValue
    let c2 := convertToBigType (dim * 16) highValue
    let c3 := createShl c2.1 (dim * 8)
    let c4 := createAdd c1.1 c3.1
    some (c4.1, c1.2 ++ c2.2 ++ c3.2 ++ c4.2)
  | .ZERO_EXTEND =>
    let c1 := convertToBigType (dim * 16) lowValue
    some (c1.1, c1.2)

/-- The `StoreAndOffset` record (declared in the StoreMerging header):
the store reference (identity `sid` plus its current payload `sdata`), the
byte size of the stored type, the byte offset from the run base, and the
original position in the run.

Modelled from the spec: the header declaring the struct is not part of the
shown sources; the spec describes it as
`{store reference, byte size, byte offset from run base, original run position}`. -/
structure StoreAndOffset where
  sid : Nat
  sdata : StoreData
  size : Nat
  offset : Int
  pos : Nat
deriving DecidableEq, Repr

/-- `StoreMerging::findBasePointerAndOffset` (lines 269-304): strip
all-constant-index GEPs, accumulating their byte offset, and bitcast
instructions; stop at anything else.

Modelled from the spec: the per-index `partialOffset` helper lives in a
header outside the shown sources; the spec says each constant-index
address computation contributes a statically known byte offset, which the
model bakes into `gepConst` as the net byte offset `byteOff`. -/
def findBasePointerAndOffset : Value → Value × Int
  | .gepConst base byteOff =>
    let r := findBasePointerAndOffset base
    (r.1, r.2 + byteOff)
  | .bitcastI src _ => findBasePointerAndOffset src
  | v => (v, 0)

/-- Insert `news` immediately before the store with identity `sid`
(models `IRBuilder` insertion before `lowStore`). -/
def insertBefore (sid : Nat) (news : List Instr) : List Instr → List Instr
  | [] => []
  | i :: rest =>
    if i.isStoreWithId sid then news ++ i :: rest
    else i :: insertBefore sid news rest

/-- `Instruction::eraseFromParent` for the store with identity `sid`. -/
def eraseStore (sid : Nat) : List Instr → List Instr
  | [] => []
  | i :: rest => if i.isStoreWithId sid then rest else i :: eraseStore sid rest

/-- The body of one iteration of the scan loop of
`processBlockOfStores(uint32_t dim, ...)` (lines 156-265) at index `i`
(`a = i`, `b = i+1`): `none` models every `continue` that skips the pair,
`some` returns the updated records, instruction stream and fresh-identity
counter after a merge. -/
def tryMergePair (isWasm : Bool) (dim : Nat) (recs : List StoreAndOffset)
    (pending : List Instr) (fresh : Nat) (i : Nat) :
    Option (List StoreAndOffset × List Instr × Nat) :=
  match recs[i]?, recs[i+1]? with
  | some ra, some rb =>
    if ra.size ≠ dim then none
    else if rb.size ≠ dim then none
    else if (dim : Int) + ra.offset ≠ rb.offset then none
    else
      let lowStore := ra.sdata
      let highStore := rb.sdata
      let alignment := lowStore.align
      if ¬ isWasm ∧ alignment < dim * 2 then none
      else
        let lowValue := lowStore.val
        let highValue := highStore.val
        if lowValue.ty.isFloatTy || lowValue.ty.isVectorTy then none
        else if highValue.ty.isFloatTy || highValue.ty.isVectorTy then none
        else
          let strategy := selectStrategy lowValue highValue
          if strategy = .NOT_CONVENIENT then none
          else
            match buildMergedValue strategy dim lowValue highValue with
            | none => none
            | some (sum, emitted) =>
              let pcast := createBitCast lowStore.ptr .pointer
              let newData : StoreData :=
                { ptr := pcast.1, val := sum, align := alignment }
              let pending1 :=
                insertBefore ra.sid (emitted ++ pcast.2 ++ [.store fresh newData]) pending
              let pending2 := eraseStore rb.sid (eraseStore ra.sid pending1)
              let recs1 := recs.set i { ra with sid := fresh, sdata := newData, size := dim * 2 }
              let recs2 := recs1.set (i + 1) { rb with size := 0 }
              some (recs2, pending2, fresh + 1)
  | _, _ => none

/-- The scan loop of `processBlockOfStores(uint32_t dim, ...)`: `i` walks
the record vector; a merge at `(i, i+1)` resumes the scan at `i+2`
(the source sets `i = b` and the loop increment adds one).  The `fuel`
argument only bounds the number of iterations so that the recursion is
structural: the loop exits at `i + 1 ≥ N` and `i` grows by at least one
per iteration, so any `fuel ≥ N` makes the zero-fuel case unreachable. -/
def processDimLoop (isWasm : Bool) (dim : Nat) (N : Nat) :
    Nat → Nat → List StoreAndOffset → List Instr → Nat → Bool →
    List StoreAndOffset × List Instr × Nat × Bool
  | 0, _, recs, pending, fresh, changed => (recs, pending, fresh, changed)
  | fuel + 1, i, recs, pending, fresh, changed =>
    if i + 1 < N then
      match tryMergePair isWasm dim recs pending fresh i with
      | none => processDimLoop isWasm dim N fuel (i + 1) recs pending fresh changed
      | some (recs1, pending1, fresh1) =>
        processDimLoop isWasm dim N fuel (i + 2) recs1 pending1 fresh1 true
    else (recs, pending, fresh, changed)

/-- `StoreMerging::processBlockOfStores(uint32_t, std::vector<StoreAndOffset>&)`
(lines 150-267). -/
def processDim (isWasm : Bool) (dim : Nat) (recs : List StoreAndOffset)
    (pending : List Instr) (fresh : Nat) :
    List StoreAndOffset × List Instr × Nat × Bool :=
  processDimLoop isWasm dim recs.length recs.length 0 recs pending fresh false

/-- `StoreMerging::filterAlreadyProcessedStores` (lines 97-111): drop the
records whose size was set to 0. -/
def filterAlreadyProcessedStores (recs : List StoreAndOffset) : List StoreAndOffset :=
  recs.filter (fun r => r.size != 0)

/-- Insert one record into a list sorted by ascending offset (helper for
`sortStores`). -/
def insertByOffset (r : StoreAndOffset) : List StoreAndOffset → List StoreAndOffset
  | [] => [r]
  | s :: rest =>
    if s.offset < r.offset then s :: insertByOffset r rest
    else r :: s :: rest

/-- `StoreMerging::sortStores` (lines 83-95): sort the records with the
comparator `left.offset < right.offset`.  The model uses a stable
insertion sort; `std::sort` fixes no order between records of equal
offset, but such runs are rejected by the overlap check below for every
offset-sorted order. -/
def sortStores : List StoreAndOffset → List StoreAndOffset
  | [] => []
  | r :: rest => insertByOffset r (sortStores rest)

/-- The pairwise overlap scan of `processBlockOfStores` (lines 120-125):
true when some adjacent pair of the (sorted) records satisfies
`offset[i] + size[i] > offset[i+1]`. -/
def hasOverlap : List StoreAndOffset → Bool
  | a :: b :: rest => (decide (b.offset < a.offset + (a.size : Int))) || hasOverlap (b :: rest)
  | _ => false

/-- `StoreMerging::processBlockOfStores(std::vector<StoreAndOffset>&)`
(lines 113-148): fewer than two records is a no-op; otherwise sort, reject
the whole run on any overlap, and run the width passes 1, 2 and (only when
`isWasm`) 4, filtering consumed records between passes.  Returns the final
records, the rewritten instruction segment, the fresh-identity counter and
the changed flag. -/
def processBlockOfStores (isWasm : Bool) (recs : List StoreAndOffset)
    (pending : List Instr) (fresh : Nat) :
    List StoreAndOffset × List Instr × Nat × Bool :=
  if recs.length < 2 then (recs, pending, fresh, false)
  else
    let sorted := sortStores recs
    if hasOverlap sorted then (sorted, pending, fresh, false)
    else
      let s1 := processDim isWasm 1 sorted pending fresh
      let r1 := filterAlreadyProcessedStores s1.1
      let s2 := processDim isWasm 2 r1 s1.2.1 s1.2.2.1
      let r2 := filterAlreadyProcessedStores s2.1
      if ¬ isWasm then (r2, s2.2.1, s2.2.2.1, s1.2.2.2 || s2.2.2.2)
      else
        let s3 := processDim isWasm 4 r2 s2.2.1 s2.2.2.1
        let r3 := filterAlreadyProcessedStores s3.1
        (r3, s3.2.1, s3.2.2.1, s1.2.2.2 || s2.2.2.2 || s3.2.2.2)

/-- The scan state of `StoreMerging::runOnBasicBlock`: instructions
already behind a flushed run (`committed`), instructions of the segment
still open (`pending`), the current base pointer, the pending records, a
fresh-identity counter for synthesized stores, and the changed flag. -/
structure ScanState where
  committed : List Instr
  pending : List Instr
  currentPtr : Option Value
  records : List StoreAndOffset
  fresh : Nat
  changed : Bool
deriving DecidableEq, Repr

/-- Submit the pending records to the planner
(`Changed |= processBlockOfStores(basedOnCurrentPtr)`), rewriting the open
segment in place.  All stores of the current run lie in `pending`, so the
in-block surgery of the source is local to it. -/
def flushRun (isWasm : Bool) (st : ScanState) : ScanState :=
  let r := processBlockOfStores isWasm st.records st.pending st.fresh
  { st with pending := r.2.1, fresh := r.2.2.1, changed := st.changed || r.2.2.2 }

/-- One iteration of the instruction loop of `runOnBasicBlock`
(lines 49-76): a store to a new base flushes the pending run and starts a
fresh one; a non-store instruction that may touch memory or have side
effects flushes the run and clears the base; every other instruction is
ignored. -/
def stepInstr (isWasm : Bool) (st : ScanState) (ins : Instr) : ScanState :=
  match ins with
  | .store sid sd =>
    let pair := findBasePointerAndOffset sd.ptr
    let st1 :=
      if st.currentPtr ≠ none ∧ st.currentPtr ≠ some pair.1 then
        let stf := flushRun isWasm st
        { stf with committed := stf.committed ++ stf.pending, pending := [],
                   records := [] }
      else st
    { st1 with
      currentPtr := some pair.1,
      pending := st1.pending ++ [.store sid sd],
      records := st1.records ++
        [⟨sid, sd, getTypeAllocSize sd.val.ty, pair.2, st1.records.length⟩] }
  | .other effect =>
    if effect then
      let stf := flushRun isWasm st
      { stf with committed := stf.committed ++ stf.pending ++ [ins],
                 pending := [], currentPtr := none, records := [] }
    else { st with pending := st.pending ++ [ins] }

/-- The smallest identity strictly larger than every store identity of the
block; models the freshness of newly allocated `StoreInst*`. -/
def initialFresh (blk : List Instr) : Nat :=
  blk.foldl (fun acc i => match i with | .store sid _ => max acc (sid + 1) | _ => acc) 0

/-- `StoreMerging::runOnBasicBlock` (lines 36-81) on a block already known
to be in the asmjs section: scan the instructions, flushing runs at base
changes and effectful instructions, and flush the final run at block end.
Returns the rewritten block and the changed flag. -/
def runOnBasicBlock (isWasm : Bool) (blk : List Instr) : List Instr × Bool :=
  let st0 : ScanState := ⟨[], [], none, [], initialFresh blk, false⟩
  let st := blk.foldl (stepInstr isWasm) st0
  let stf := flushRun isWasm st
  (stf.committed ++ stf.pending, stf.changed)

/-- The block and changed flag produced by scanning `l` from state `st`
and flushing the final run (the tail end of `runOnBasicBlock`, from an
arbitrary start state). -/
def scanOut (isWasm : Bool) (st : ScanState) (l : List Instr) : List Instr × Bool :=
  let stf := flushRun isWasm (l.foldl (stepInstr isWasm) st)
  (stf.committed ++ stf.pending, stf.changed)

/-- A function: its section tag (`getSection() == "asmjs"`) and its basic
blocks. -/
structure Func where
  sectionIsAsmjs : Bool
  blocks : List (List Instr)
deriving DecidableEq, Repr

/-- `runOnBasicBlock` including the section gate of lines 39-42. -/
def runOnBasicBlockGated (isWasm : Bool) (asmjs : Bool) (blk : List Instr) :
    List Instr × Bool :=
  if asmjs then runOnBasicBlock isWasm blk else (blk, false)

/-- `StoreMerging::runOnFunction` (lines 26-34): fold over the blocks,
accumulating the changed flag. -/
def runOnFunction (isWasm : Bool) (F : Func) : Func × Bool :=
  let results := F.blocks.map (runOnBasicBlockGated isWasm F.sectionIsAsmjs)
  (⟨F.sectionIsAsmjs, results.map Prod.fst⟩, results.any Prod.snd)

/-! ### Concrete scenario blocks -/

/-- A shared opaque base pointer for the concrete scenarios. -/
def basePtr : Value := .arg .pointer 0

/-- Scenario A of the spec: four 1-byte constant stores of
`0x11,0x22,0x33,0x44` at offsets 0..3 from a 4-byte-aligned base
(alignments 4,1,2,1 as a compiler emits them for such a base). -/
def scenarioABlock : List Instr :=
  [ .store 0 ⟨basePtr, .constInt 8 0x11, 4⟩,
    .store 1 ⟨.gepConst basePtr 1, .constInt 8 0x22, 1⟩,
    .store 2 ⟨.gepConst basePtr 2, .constInt 8 0x33, 2⟩,
    .store 3 ⟨.gepConst basePtr 3, .constInt 8 0x44, 1⟩ ]

/-- Scenario C of the spec: two adjacent 2-byte constant stores whose
first store has alignment 2. -/
def scenarioCBlock : List Instr :=
  [ .store 0 ⟨basePtr, .constInt 16 0xAAAA, 2⟩,
    .store 1 ⟨.gepConst basePtr 2, .constInt 16 0xBBBB, 2⟩ ]

/-- Scenario D of the spec: a store, then a call-like instruction with
side effects, then a store to the same base at the adjacent offset. -/
def scenarioDBlock : List Instr :=
  [ .store 0 ⟨basePtr, .constInt 8 1, 4⟩,
    .other true,
    .store 1 ⟨.gepConst basePtr 1, .constInt 8 2, 4⟩ ]

/-- Two adjacent 2-byte stores of `half` (16-bit float) constants
(bit patterns of 1.0 and 2.0), otherwise fully merge-eligible. -/
def halfStoresBlock : List Instr :=
  [ .store 0 ⟨basePtr, .constFP .half 0x3C00, 4⟩,
    .store 1 ⟨.gepConst basePtr 2, .constFP .half 0x4000, 2⟩ ]

/-- A run of two records whose byte ranges overlap (a 2-byte store at
offset 0 and a 2-byte store at offset 1). -/
def overlappingRun : List StoreAndOffset :=
  [ ⟨0, ⟨basePtr, .constInt 16 1, 4⟩, 2, 0, 0⟩,
    ⟨1, ⟨.gepConst basePtr 1, .constInt 16 2, 4⟩, 2, 1, 1⟩ ]

/-- The width cap of the transform: 8 bytes on the wasm target, 4 bytes on
the baseline asmjs target. -/
def widthCap (isWasm : Bool) : Nat := if isWasm then 8 else 4

/-- The instruction segment the records of `overlappingRun` refer to. -/
def overlappingPending : List Instr :=
  [ .store 0 ⟨basePtr, .constInt 16 1, 4⟩,
    .store 1 ⟨.gepConst basePtr 1, .constInt 16 2, 4⟩ ]

/-- The record run built from `scenarioCBlock`: two 2-byte records at
offsets 0 and 2, the first with alignment 2. -/
def scenarioCRun : List StoreAndOffset :=
  [ ⟨0, ⟨basePtr, .constInt 16 0xAAAA, 2⟩, 2, 0, 0⟩,
    ⟨1, ⟨.gepConst basePtr 2, .constInt 16 0xBBBB, 2⟩, 2, 2, 1⟩ ]

/-- Two adjacent 4-byte constant stores at offsets 0 and 4: merged into an
8-byte store on the wasm target only (width-4 merges are not attempted on
the baseline target). -/
def wideBlock : List Instr :=
  [ .store 0 ⟨basePtr, .constInt 32 0x11223344, 8⟩,
    .store 1 ⟨.gepConst basePtr 4, .constInt 32 0x55667788, 4⟩ ]

/-! ### Derived notions used to state idempotence -/

/-- The store identities of a block fragment, in order. -/
def sidsOf (l : List Instr) : List Nat :=
  l.filterMap (fun i => match i with | .store sid _ => some sid | _ => none)

/-- The stores of a block fragment, in order. -/
def storesOf (l : List Instr) : List (Nat × StoreData) :=
  l.filterMap (fun i => match i with | .store sid sd => some (sid, sd) | _ => none)

/-- The records the Run Builder accumulates while scanning a fragment,
starting the position counter at `k`. -/
def segRecordsAux (k : Nat) : List Instr → List StoreAndOffset
  | [] => []
  | .store sid sd :: rest =>
    ⟨sid, sd, getTypeAllocSize sd.val.ty, (findBasePointerAndOffset sd.ptr).2, k⟩ ::
      segRecordsAux (k + 1) rest
  | .other _ :: rest => segRecordsAux k rest

/-- The records the Run Builder accumulates while scanning a fragment. -/
def segRecords (l : List Instr) : List StoreAndOffset := segRecordsAux 0 l

/-- The merge-relevant fields of a record: everything but the (unused)
original position. -/
def core (r : StoreAndOffset) : Nat × StoreData × Nat × Int :=
  (r.sid, r.sdata, r.size, r.offset)

/-- The cores of the live (non-tombstoned) records. -/
def aliveCores (recs : List StoreAndOffset) : List (Nat × StoreData × Nat × Int) :=
  (filterAlreadyProcessedStores recs).map core

/-- The record core the Run Builder would derive for a store. -/
def coreOfStore (s : Nat × StoreData) : Nat × StoreData × Nat × Int :=
  (s.1, s.2, getTypeAllocSize s.2.val.ty, (findBasePointerAndOffset s.2.ptr).2)

/-- No instruction of the fragment may touch memory or have side effects
(true of every run segment: effectful instructions always flush). -/
def noEffect (l : List Instr) : Prop := ∀ i ∈ l, i ≠ Instr.other true

/-- Every store of the fragment resolves to base `p`. -/
def baseUniform (p : Value) (l : List Instr) : Prop :=
  ∀ sid sd, Instr.store sid sd ∈ l → (findBasePointerAndOffset sd.ptr).1 = p

/-- The per-pair conditions that block a merge after the size and
contiguity checks: insufficient alignment on the baseline target, a float
or vector operand, or no applicable packing strategy. -/
def mergeBlocked (w : Bool) (dim : Nat) (ra rb : StoreAndOffset) : Prop :=
  (¬ w = true ∧ ra.sdata.align < dim * 2) ∨
  (ra.sdata.val.ty.isFloatTy || ra.sdata.val.ty.isVectorTy) = true ∨
  (rb.sdata.val.ty.isFloatTy || rb.sdata.val.ty.isVectorTy) = true ∨
  selectStrategy ra.sdata.val rb.sdata.val = .NOT_CONVENIENT

/-- A pair of adjacent records is skipped by the executor scan. -/
def pairSkip (w : Bool) (dim : Nat) (ra rb : StoreAndOffset) : Prop :=
  ra.size ≠ dim ∨ rb.size ≠ dim ∨ (dim : Int) + ra.offset ≠ rb.offset ∨
    mergeBlocked w dim ra rb

/-- Saturation relation at width `dim`: a contiguous pair of `dim`-sized
records must be blocked. -/
def satRel (w : Bool) (dim : Nat) (ra rb : StoreAndOffset) : Prop :=
  ra.size = dim → rb.size = dim → rb.offset = (dim : Int) + ra.offset →
    mergeBlocked w dim ra rb

/-- Ordering and disjointness of a record list: offsets are strictly
increasing throughout, and live records have disjoint byte intervals. -/
def recOrder (a b : StoreAndOffset) : Prop :=
  a.offset < b.offset ∧
    (a.size ≠ 0 → b.size ≠ 0 → a.offset + (a.size : Int) ≤ b.offset)

/-- A record list the planner cannot change: processing it leaves any
instruction stream untouched and reports no change. -/
def SatRecords (w : Bool) (recs : List StoreAndOffset) : Prop :=
  ∀ (p : List Instr) (f : Nat),
    (processBlockOfStores w recs p f).2.1 = p ∧
    (processBlockOfStores w recs p f).2.2.2 = false

/-- Well-formedness of an input block: distinct store identities (store
instructions have pointer identity in LLVM) and no zero-sized store (LLVM
has no zero-width integer type). -/
def WFBlock (blk : List Instr) : Prop :=
  (sidsOf blk).Nodup ∧
    ∀ sid sd, Instr.store sid sd ∈ blk → 1 ≤ getTypeAllocSize sd.val.ty

/-- Well-formedness of a function: every block is well-formed. -/
def WFFunc (F : Func) : Prop := ∀ blk ∈ F.blocks, WFBlock blk

/-- The payload of the store synthesized for a merge with lower record
`ra` and combined value `sum`. -/
def mergedStoreData (ra : StoreAndOffset) (sum : Value) : StoreData :=
  ⟨(createBitCast ra.sdata.ptr .pointer).1, sum, ra.sdata.align⟩

/-- The surviving record after a merge: the lower record, rebound to the
synthesized store, with doubled size. -/
def mergedRecord (f dim : Nat) (ra : StoreAndOffset) (sum : Value) : StoreAndOffset :=
  { ra with sid := f, sdata := mergedStoreData ra sum, size := dim * 2 }

/-- The consumed record after a merge: the higher record tombstoned. -/
def tombRecord (rb : StoreAndOffset) : StoreAndOffset := { rb with size := 0 }

/-- The invariant bundle carried through one width pass of the executor
scan at width `dim` over the segment with base `p0base`: `recs0` is the
record vector at the start of the pass, `recs`, `p`, `f` the current
records, segment and fresh-identity counter. -/
structure PassInv (w : Bool) (dim : Nat) (p0base : Value)
    (recs0 recs : List StoreAndOffset) (p : List Instr) (f : Nat) : Prop where
  len : recs.length = recs0.length
  order : recs.Pairwise recOrder
  tomb : ∀ (k : Nat) (t : StoreAndOffset), recs[k]? = some t → t.size = 0 →
    ∃ (m : Nat) (a : StoreAndOffset), recs[m]? = some a ∧ a.size = dim * 2 ∧
      t.offset = a.offset + (dim : Int)
  sizes : ∀ (j : Nat) (rj : StoreAndOffset), recs[j]? = some rj →
    recs[j]? = recs0[j]? ∨ rj.size = dim * 2 ∨ rj.size = 0
  ms : List.Perm ((segRecords p).map core) (aliveCores recs)
  rcons : ∀ r ∈ recs, r.size ≠ 0 →
    r.size = getTypeAllocSize r.sdata.val.ty ∧
    r.offset = (findBasePointerAndOffset r.sdata.ptr).2 ∧
    (findBasePointerAndOffset r.sdata.ptr).1 = p0base
  sids_nodup : (sidsOf p).Nodup
  noeff : noEffect p
  fresh_bound : ∀ s ∈ sidsOf p, s < f

end StoreMerging

namespace StoreMerging

/-! ### Helper lemmas about the IRBuilder model -/

theorem createZExt_snd_eq_other (v : Value) (bits : Nat) :
    ∀ x ∈ (createZExt v bits).2, x = Instr.other false := by
  cases v <;> simp [createZExt]

theorem createPtrToInt_snd_eq_other (v : Value) (bits : Nat) :
    ∀ x ∈ (createPtrToInt v bits).2, x = Instr.other false := by
  simp [createPtrToInt]

theorem createBitCast_snd_eq_other (v : Value) (t : Ty) :
    ∀ x ∈ (createBitCast v t).2, x = Instr.other false := by
  unfold createBitCast
  split <;> simp

theorem createShl_snd_eq_other (v : Value) (amt : Nat) :
    ∀ x ∈ (createShl v amt).2, x = Instr.other false := by
  cases v <;> simp [createShl]

theorem createAdd_snd_eq_other (a b : Value) :
    ∀ x ∈ (createAdd a b).2, x = Instr.other false := by
  cases a <;> cases b <;> simp [createAdd]

theorem convertStep1_snd_eq_other (v : Value) :
    ∀ x ∈ (convertStep1 v).2, x = Instr.other false := by
  unfold convertStep1
  split
  · exact createPtrToInt_snd_eq_other _ _
  · split
    · exact createBitCast_snd_eq_other _ _
    · simp

theorem convertToBigType_snd_eq_other (bigBits : Nat) (v : Value) :
    ∀ x ∈ (convertToBigType bigBits v).2, x = Instr.other false := by
  unfold convertToBigType
  dsimp only
  intro x hx
  rw [List.mem_append] at hx
  rcases hx with hx | hx
  · exact convertStep1_snd_eq_other _ x hx
  · revert hx
    split
    · exact createZExt_snd_eq_other _ _ x
    · simp

theorem buildMergedValue_snd_eq_other (s : STRATEGY) (dim : Nat)
    (lv hv : Value) (sum : Value) (em : List Instr)
    (h : buildMergedValue s dim lv hv = some (sum, em)) :
    ∀ x ∈ em, x = Instr.other false := by
  cases s with
  | NOT_CONVENIENT => exact absurd h (by simp [buildMergedValue])
  | CONSTANT =>
    simp only [buildMergedValue, Option.some.injEq, Prod.mk.injEq] at h
    intro x hx
    rw [← h.2] at hx
    simp only [List.mem_append] at hx
    rcases hx with ((hx | hx) | hx) | hx
    · exact convertToBigType_snd_eq_other _ _ x hx
    · exact convertToBigType_snd_eq_other _ _ x hx
    · exact createShl_snd_eq_other _ _ x hx
    · exact createAdd_snd_eq_other _ _ x hx
  | ZERO_EXTEND =>
    simp only [buildMergedValue, Option.some.injEq, Prod.mk.injEq] at h
    intro x hx
    rw [← h.2] at hx
    exact convertToBigType_snd_eq_other _ _ x hx

theorem createZExt_fst_ty (v : Value) (bits : Nat) :
    ((createZExt v bits).1).ty = .integer bits := by
  cases v <;> rfl

theorem createShl_fst_ty (v : Value) (amt : Nat) :
    ((createShl v amt).1).ty = v.ty := by
  cases v <;> rfl

theorem createAdd_fst_ty (a b : Value) :
    ((createAdd a b).1).ty = a.ty := by
  cases a <;> cases b <;> rfl

theorem convertToBigType_fst_ty (bigBits : Nat) (v : Value) :
    ((convertToBigType bigBits v).1).ty = .integer bigBits := by
  unfold convertToBigType
  dsimp only
  split
  · exact createZExt_fst_ty _ _
  · next h => simpa using h

theorem convertStep1_constInt (bits n : Nat) :
    convertStep1 (.constInt bits n) = (.constInt bits n, []) := by
  simp [convertStep1, Value.ty, Ty.isPointerTy, Ty.isIntegerTy]

theorem buildMergedValue_sum_ty (s : STRATEGY) (dim : Nat)
    (lv hv : Value) (sum : Value) (em : List Instr)
    (h : buildMergedValue s dim lv hv = some (sum, em)) :
    sum.ty = .integer (dim * 16) := by
  cases s with
  | NOT_CONVENIENT => exact absurd h (by simp [buildMergedValue])
  | CONSTANT =>
    simp only [buildMergedValue, Option.some.injEq, Prod.mk.injEq] at h
    rw [← h.1, createAdd_fst_ty]
    exact convertToBigType_fst_ty _ _
  | ZERO_EXTEND =>
    simp only [buildMergedValue, Option.some.injEq, Prod.mk.injEq] at h
    rw [← h.1]
    exact convertToBigType_fst_ty _ _

theorem convertToBigType_constInt (bigBits bits n : Nat) (h : ¬ bits = bigBits) :
    convertToBigType bigBits (.constInt bits n) = (.constInt bigBits n, []) := by
  unfold convertToBigType
  rw [convertStep1_constInt]
  simp [Value.ty, createZExt, h]

end StoreMerging

namespace StoreMerging

/-! ### Claim theorems -/

/-- C1: for every run of store records in which, after sorting by offset,
some adjacent pair satisfies `offset[i] + size[i] > offset[i+1]`, the
planner performs no merge at all: the instruction segment is returned
unchanged and the changed flag is false. -/
theorem overlapping_run_leaves_block_unchanged (isWasm : Bool)
    (recs : List StoreAndOffset) (pending : List Instr) (fresh : Nat)
    (h : hasOverlap (sortStores recs) = true) :
    (processBlockOfStores isWasm recs pending fresh).2.1 = pending ∧
    (processBlockOfStores isWasm recs pending fresh).2.2.2 = false := by
  unfold processBlockOfStores
  by_cases hl : recs.length < 2
  · simp [hl]
  · simp [hl, h]

theorem overlapping_run_leaves_block_unchanged_witness :
    (processBlockOfStores false overlappingRun overlappingPending 2).2.1 =
      overlappingPending ∧
    (processBlockOfStores false overlappingRun overlappingPending 2).2.2.2 = false :=
  overlapping_run_leaves_block_unchanged false overlappingRun overlappingPending 2
    (by decide)

/-- C2: a constant-fold merge of an adjacent width-`dim` pair packs little
endian: the synthesized constant is `low + high * 2 ^ (8 * dim)` at width
`dim * 16` bits; and Scenario A - four 1-byte constant stores
`0x11,0x22,0x33,0x44` at offsets 0..3 of a 4-byte-aligned base on the
baseline target - becomes a single 4-byte store of `0x44332211`. -/
theorem constant_fold_packs_little_endian :
    (∀ dim x y : Nat, 0 < dim → x < 2 ^ (8 * dim) → y < 2 ^ (8 * dim) →
      buildMergedValue .CONSTANT dim (.constInt (8 * dim) x) (.constInt (8 * dim) y) =
        some (.constInt (dim * 16) (x + y * 2 ^ (8 * dim)), [])) ∧
    runOnBasicBlock false scenarioABlock =
      ([.store 6 ⟨basePtr, .constInt 32 0x44332211, 4⟩], true) := by
  refine ⟨?_, by decide⟩
  intro dim x y hdim hx hy
  have hne : ¬ (8 * dim = dim * 16) := by omega
  have hexp : dim * 16 = 8 * dim + 8 * dim := by ring
  have hB : (2 : Nat) ^ (dim * 16) = 2 ^ (8 * dim) * 2 ^ (8 * dim) := by
    rw [hexp, pow_add]
  have hshl : (y <<< (dim * 8)) % 2 ^ (dim * 16) = y * 2 ^ (8 * dim) := by
    rw [Nat.shiftLeft_eq]
    have h8 : dim * 8 = 8 * dim := by ring
    rw [h8, hB]
    exact Nat.mod_eq_of_lt (by
      exact mul_lt_mul_of_pos_right hy (pow_pos (by norm_num) _))
  have hadd : (x + y * 2 ^ (8 * dim)) % 2 ^ (dim * 16) = x + y * 2 ^ (8 * dim) := by
    rw [hB]
    refine Nat.mod_eq_of_lt ?_
    calc x + y * 2 ^ (8 * dim)
        < 2 ^ (8 * dim) + y * 2 ^ (8 * dim) := by omega
      _ = (y + 1) * 2 ^ (8 * dim) := by ring
      _ ≤ 2 ^ (8 * dim) * 2 ^ (8 * dim) :=
          Nat.mul_le_mul_right _ (by omega)
  simp only [buildMergedValue, convertToBigType_constInt _ _ _ hne]
  simp only [createShl, createAdd, hshl, hadd]
  simp

theorem constant_fold_packs_little_endian_witness :
    buildMergedValue .CONSTANT 1 (.constInt (8 * 1) 0x11) (.constInt (8 * 1) 0x22) =
      some (.constInt (1 * 16) (0x11 + 0x22 * 2 ^ (8 * 1)), []) :=
  constant_fold_packs_little_endian.1 1 0x11 0x22 (by decide) (by decide) (by decide)

/-- C3 (evidence of the code bug): the float/vector guard of the executor
matches only the 32-bit `float` type, so a fully eligible pair of 2-byte
stores of `half` (16-bit floating point) constants is not skipped - the
pair is merged and the instruction stream rewritten, contradicting the
claim that any floating-point operand causes the pair to be skipped with
both stores left unmodified. -/
theorem half_typed_pair_is_merged :
    Ty.half.isFloatTy = false ∧
    (runOnBasicBlock false halfStoresBlock).2 = true ∧
    (runOnBasicBlock false halfStoresBlock).1 ≠ halfStoresBlock := by
  decide

/-- C5: a width-`dim` merge requires the lower store alignment to be at
least `2*dim` bytes on the baseline target - any pair whose lower record
has a smaller alignment is skipped; and on Scenario C (two 2-byte stores,
first alignment 2) the baseline target merges nothing while the wasm
target merges the pair. -/
theorem merge_requires_alignment :
    (∀ (dim : Nat) (recs : List StoreAndOffset) (pending : List Instr)
       (fresh i : Nat) (ra : StoreAndOffset),
       recs[i]? = some ra → ra.sdata.align < dim * 2 →
       tryMergePair false dim recs pending fresh i = none) ∧
    runOnBasicBlock false scenarioCBlock = (scenarioCBlock, false) ∧
    runOnBasicBlock true scenarioCBlock =
      ([.store 2 ⟨basePtr, .constInt 32 0xBBBBAAAA, 2⟩], true) := by
  refine ⟨?_, by decide, by decide⟩
  intro dim recs pending fresh i ra hra hal
  unfold tryMergePair
  rw [hra]
  cases hrb : recs[i + 1]? with
  | none => rfl
  | some rb =>
    by_cases h1 : ra.size ≠ dim
    · simp [h1]
    · by_cases h2 : rb.size ≠ dim
      · simp [h1, h2]
      · by_cases h3 : (dim : Int) + ra.offset ≠ rb.offset
        · simp [h1, h2, h3]
        · simp [h1, h2, h3, hal]

theorem merge_requires_alignment_witness :
    tryMergePair false 2 scenarioCRun overlappingPending 7 0 = none :=
  merge_requires_alignment.1 2 scenarioCRun overlappingPending 7 0
    ⟨0, ⟨basePtr, .constInt 16 0xAAAA, 2⟩, 2, 0, 0⟩ (by decide) (by decide)

/-- C6: a non-store instruction that may touch memory or have side effects
flushes the pending run and clears the current base; an instruction with
no memory access or side effect changes nothing but the scanned segment;
and on Scenario D (store, call, store to the same base at the adjacent
offset) nothing is merged. -/
theorem effectful_instructions_flush_runs :
    (∀ (w : Bool) (st : ScanState),
      (stepInstr w st (.other true)).records = [] ∧
      (stepInstr w st (.other true)).currentPtr = none ∧
      (stepInstr w st (.other true)).pending = []) ∧
    (∀ (w : Bool) (st : ScanState),
      stepInstr w st (.other false) =
        { st with pending := st.pending ++ [.other false] }) ∧
    runOnBasicBlock false scenarioDBlock = (scenarioDBlock, false) :=
  ⟨fun _ _ => ⟨rfl, rfl, rfl⟩, fun _ _ => rfl, by decide⟩

/-- C8 (evidence of the code bug): converting a non-integer, non-pointer
operand, the executor bitcasts it to `IntegerType::get(ctx,
DL->getTypeAllocSize(type))`, i.e. it passes the alloc size in bytes (2
for `half`) where a bit width is expected, instead of the natural bit
width (16 for `half`) that a valid bitcast requires; pointer operands do
go through `ptrtoint` at the native 32-bit width as claimed. -/
theorem convert_uses_alloc_size_as_bit_width :
    convertToBigType 32 (.arg .half 0) =
      (.zextI (.bitcastI (.arg .half 0) (.integer 2)) 32,
        [.other false, .other false]) ∧
    getTypeAllocSize .half = 2 ∧
    bitWidthOf .half = 16 ∧
    bitWidthOf (.integer (getTypeAllocSize .half)) ≠ bitWidthOf .half ∧
    convertToBigType 64 (.arg .pointer 1) =
      (.zextI (.ptrToIntI (.arg .pointer 1) 32) 64,
        [.other false, .other false]) := by
  decide

/-- C10: whenever the pair scan reaches the value-synthesis path (the
selected strategy survived the `NOT_CONVENIENT` guard), the strategy is
`CONSTANT` or `ZERO_EXTEND` and the synthesis succeeds - the
`assert(false)` branch, modelled by the `none` result of
`buildMergedValue`, is unreachable. -/
theorem executor_never_hits_assert (dim : Nat) (lowValue highValue : Value)
    (h : selectStrategy lowValue highValue ≠ .NOT_CONVENIENT) :
    (selectStrategy lowValue highValue = .CONSTANT ∨
      selectStrategy lowValue highValue = .ZERO_EXTEND) ∧
    (buildMergedValue (selectStrategy lowValue highValue) dim lowValue
        highValue).isSome = true := by
  cases hs : selectStrategy lowValue highValue with
  | NOT_CONVENIENT => exact absurd hs h
  | CONSTANT => exact ⟨Or.inl rfl, by simp [buildMergedValue]⟩
  | ZERO_EXTEND => exact ⟨Or.inr rfl, by simp [buildMergedValue]⟩

theorem executor_never_hits_assert_witness :
    (selectStrategy (.constInt 8 1) (.constInt 8 2) = .CONSTANT ∨
      selectStrategy (.constInt 8 1) (.constInt 8 2) = .ZERO_EXTEND) ∧
    (buildMergedValue (selectStrategy (.constInt 8 1) (.constInt 8 2)) 1
        (.constInt 8 1) (.constInt 8 2)).isSome = true :=
  executor_never_hits_assert 1 (.constInt 8 1) (.constInt 8 2) (by decide)

end StoreMerging

namespace StoreMerging

/-! ### Store provenance: every store in the output is an input store or a
store synthesized at one of the attempted merge widths -/

theorem mem_of_mem_eraseStore (sid : Nat) (l : List Instr) (x : Instr)
    (h : x ∈ eraseStore sid l) : x ∈ l := by
  induction l with
  | nil => simpa [eraseStore] using h
  | cons i rest ih =>
    unfold eraseStore at h
    split at h
    · exact List.mem_cons_of_mem _ h
    · rcases List.mem_cons.mp h with h | h
      · exact h ▸ List.mem_cons_self _ _
      · exact List.mem_cons_of_mem _ (ih h)

theorem mem_of_mem_insertBefore (sid : Nat) (news l : List Instr) (x : Instr)
    (h : x ∈ insertBefore sid news l) : x ∈ news ∨ x ∈ l := by
  induction l with
  | nil => simp [insertBefore] at h
  | cons i rest ih =>
    unfold insertBefore at h
    split at h
    · rcases List.mem_append.mp h with h | h
      · exact Or.inl h
      · exact Or.inr h
    · rcases List.mem_cons.mp h with h | h
      · exact Or.inr (h ▸ List.mem_cons_self _ _)
      · rcases ih h with h | h
        · exact Or.inl h
        · exact Or.inr (List.mem_cons_of_mem _ h)

theorem tryMergePair_store_provenance (isWasm : Bool) (dim : Nat)
    (recs : List StoreAndOffset) (pending : List Instr) (fresh i : Nat)
    (recs1 : List StoreAndOffset) (pending1 : List Instr) (fresh1 : Nat)
    (h : tryMergePair isWasm dim recs pending fresh i = some (recs1, pending1, fresh1))
    (s : Nat) (d : StoreData) (hmem : Instr.store s d ∈ pending1) :
    Instr.store s d ∈ pending ∨ d.val.ty = .integer (dim * 16) := by
  unfold tryMergePair at h
  cases hra : recs[i]? with
  | none => rw [hra] at h; exact Option.noConfusion h
  | some ra =>
  cases hrb : recs[i + 1]? with
  | none => rw [hra, hrb] at h; exact Option.noConfusion h
  | some rb =>
  rw [hra, hrb] at h
  dsimp only at h
  split at h
  · exact Option.noConfusion h
  split at h
  · exact Option.noConfusion h
  split at h
  · exact Option.noConfusion h
  split at h
  · exact Option.noConfusion h
  split at h
  · exact Option.noConfusion h
  split at h
  · exact Option.noConfusion h
  split at h
  · exact Option.noConfusion h
  split at h
  · exact Option.noConfusion h
  next sum emitted heq =>
  simp only [Option.some.injEq, Prod.mk.injEq] at h
  obtain ⟨-, hp, -⟩ := h
  rw [← hp] at hmem
  rcases mem_of_mem_insertBefore _ _ _ _
      (mem_of_mem_eraseStore _ _ _ (mem_of_mem_eraseStore _ _ _ hmem)) with hnew | hold
  · simp only [List.mem_append, List.mem_singleton] at hnew
    rcases hnew with (hnew | hnew) | hnew
    · exact absurd (buildMergedValue_snd_eq_other _ _ _ _ _ _ heq _ hnew) (by simp)
    · exact absurd (createBitCast_snd_eq_other _ _ _ hnew) (by simp)
    · refine Or.inr ?_
      have hd : d = ⟨(createBitCast ra.sdata.ptr .pointer).1, sum, ra.sdata.align⟩ := by
        injection hnew with h1 h2
      rw [hd]
      exact buildMergedValue_sum_ty _ _ _ _ _ _ heq
  · exact Or.inl hold

theorem processDimLoop_store_provenance (isWasm : Bool) (dim N : Nat) :
    ∀ (fuel i : Nat) (recs : List StoreAndOffset) (pending : List Instr)
      (fresh : Nat) (changed : Bool) (s : Nat) (d : StoreData),
      Instr.store s d ∈
        (processDimLoop isWasm dim N fuel i recs pending fresh changed).2.1 →
      Instr.store s d ∈ pending ∨ d.val.ty = .integer (dim * 16) := by
  intro fuel
  induction fuel with
  | zero =>
    intro i recs pending fresh changed s d h
    exact Or.inl h
  | succ fuel ih =>
    intro i recs pending fresh changed s d h
    rw [processDimLoop] at h
    split at h
    · split at h
      · exact ih _ _ _ _ _ _ _ h
      · next recs1 pending1 fresh1 heq =>
        rcases ih _ _ _ _ _ _ _ h with h1 | h1
        · exact tryMergePair_store_provenance _ _ _ _ _ _ _ _ _ heq _ _ h1
        · exact Or.inr h1
    · exact Or.inl (by simpa using h)

theorem processDim_store_provenance (isWasm : Bool) (dim : Nat)
    (recs : List StoreAndOffset) (pending : List Instr) (fresh : Nat)
    (s : Nat) (d : StoreData)
    (h : Instr.store s d ∈ (processDim isWasm dim recs pending fresh).2.1) :
    Instr.store s d ∈ pending ∨ d.val.ty = .integer (dim * 16) :=
  processDimLoop_store_provenance isWasm dim recs.length recs.length 0 recs
    pending fresh false s d h

theorem processBlockOfStores_store_provenance (isWasm : Bool)
    (recs : List StoreAndOffset) (pending : List Instr) (fresh : Nat)
    (s : Nat) (d : StoreData)
    (h : Instr.store s d ∈ (processBlockOfStores isWasm recs pending fresh).2.1) :
    Instr.store s d ∈ pending ∨ getTypeAllocSize d.val.ty ≤ widthCap isWasm := by
  unfold processBlockOfStores at h
  by_cases hl : recs.length < 2
  · rw [if_pos hl] at h
    exact Or.inl h
  · rw [if_neg hl] at h
    dsimp only at h
    by_cases ho : hasOverlap (sortStores recs) = true
    · rw [if_pos ho] at h
      exact Or.inl h
    · rw [if_neg ho] at h
      by_cases hW : isWasm = true
      · rw [if_neg (not_not_intro hW)] at h
        rw [hW]
        rcases processDim_store_provenance _ _ _ _ _ _ _ h with h1 | h1
        · rcases processDim_store_provenance _ _ _ _ _ _ _ h1 with h2 | h2
          · rcases processDim_store_provenance _ _ _ _ _ _ _ h2 with h3 | h3
            · exact Or.inl h3
            · exact Or.inr (by rw [h3]; decide)
          · exact Or.inr (by rw [h2]; decide)
        · exact Or.inr (by rw [h1]; decide)
      · rw [if_pos hW] at h
        rw [Bool.not_eq_true] at hW
        rw [hW]
        rcases processDim_store_provenance _ _ _ _ _ _ _ h with h1 | h1
        · rcases processDim_store_provenance _ _ _ _ _ _ _ h1 with h2 | h2
          · exact Or.inl h2
          · exact Or.inr (by rw [h2]; decide)
        · exact Or.inr (by rw [h1]; decide)

theorem flushRun_store_provenance (isWasm : Bool) (st : ScanState)
    (s : Nat) (d : StoreData)
    (h : Instr.store s d ∈
      (flushRun isWasm st).committed ++ (flushRun isWasm st).pending) :
    Instr.store s d ∈ st.committed ++ st.pending ∨
      getTypeAllocSize d.val.ty ≤ widthCap isWasm := by
  unfold flushRun at h
  dsimp only at h
  rw [List.mem_append] at h
  rcases h with h | h
  · exact Or.inl (List.mem_append.mpr (Or.inl h))
  · rcases processBlockOfStores_store_provenance _ _ _ _ _ _ h with h | h
    · exact Or.inl (List.mem_append.mpr (Or.inr h))
    · exact Or.inr h

theorem stepInstr_store_provenance (isWasm : Bool) (st : ScanState)
    (ins : Instr) (s : Nat) (d : StoreData)
    (h : Instr.store s d ∈
      (stepInstr isWasm st ins).committed ++ (stepInstr isWasm st ins).pending) :
    Instr.store s d ∈ st.committed ++ st.pending ∨ Instr.store s d = ins ∨
      getTypeAllocSize d.val.ty ≤ widthCap isWasm := by
  cases ins with
  | store sid sd =>
    unfold stepInstr at h
    dsimp only at h
    split at h
    · rcases List.mem_append.mp h with h1 | h1
      · rcases flushRun_store_provenance isWasm st s d h1 with h2 | h2
        · exact Or.inl h2
        · exact Or.inr (Or.inr h2)
      · exact Or.inr (Or.inl (by simpa using h1))
    · rcases List.mem_append.mp h with h1 | h1
      · exact Or.inl (List.mem_append.mpr (Or.inl h1))
      · rcases List.mem_append.mp h1 with h2 | h2
        · exact Or.inl (List.mem_append.mpr (Or.inr h2))
        · exact Or.inr (Or.inl (by simpa using h2))
  | other effect =>
    cases effect with
    | false =>
      replace h : Instr.store s d ∈ st.committed ++ (st.pending ++ [Instr.other false]) := h
      rcases List.mem_append.mp h with h1 | h1
      · exact Or.inl (List.mem_append.mpr (Or.inl h1))
      · rcases List.mem_append.mp h1 with h2 | h2
        · exact Or.inl (List.mem_append.mpr (Or.inr h2))
        · exact absurd (List.mem_singleton.mp h2) (by simp)
    | true =>
      replace h : Instr.store s d ∈
          ((flushRun isWasm st).committed ++ (flushRun isWasm st).pending ++
            [Instr.other true]) ++ ([] : List Instr) := h
      rw [List.append_nil] at h
      rcases List.mem_append.mp h with h1 | h1
      · rcases flushRun_store_provenance isWasm st s d h1 with h2 | h2
        · exact Or.inl h2
        · exact Or.inr (Or.inr h2)
      · exact absurd (List.mem_singleton.mp h1) (by simp)

theorem foldl_store_provenance (isWasm : Bool) (l : List Instr) :
    ∀ (st : ScanState) (s : Nat) (d : StoreData),
      Instr.store s d ∈ (l.foldl (stepInstr isWasm) st).committed ++
        (l.foldl (stepInstr isWasm) st).pending →
      Instr.store s d ∈ st.committed ++ st.pending ∨ Instr.store s d ∈ l ∨
        getTypeAllocSize d.val.ty ≤ widthCap isWasm := by
  induction l with
  | nil => intro st s d h; exact Or.inl h
  | cons i rest ih =>
    intro st s d h
    rw [List.foldl_cons] at h
    rcases ih _ _ _ h with h1 | h1 | h1
    · rcases stepInstr_store_provenance _ _ _ _ _ h1 with h2 | h2 | h2
      · exact Or.inl h2
      · exact Or.inr (Or.inl (h2 ▸ List.mem_cons_self _ _))
      · exact Or.inr (Or.inr h2)
    · exact Or.inr (Or.inl (List.mem_cons_of_mem _ h1))
    · exact Or.inr (Or.inr h1)

/-- C4: no store wider than the target width cap is ever produced: every
store of the output block is either an original store of the input block
or a synthesized store whose value type alloc size is at most 4 bytes on
the baseline target and 8 bytes on the wasm target; moreover, a pair of
4-byte stores is left unmerged on the baseline target (width 4 is not
attempted there) while the wasm target merges it into one 8-byte store. -/
theorem width_cap_on_produced_stores :
    (∀ (isWasm : Bool) (blk : List Instr) (s : Nat) (d : StoreData),
      Instr.store s d ∈ (runOnBasicBlock isWasm blk).1 →
      Instr.store s d ∈ blk ∨ getTypeAllocSize d.val.ty ≤ widthCap isWasm) ∧
    runOnBasicBlock false wideBlock = (wideBlock, false) ∧
    runOnBasicBlock true wideBlock =
      ([.store 2 ⟨basePtr, .constInt 64 0x5566778811223344, 8⟩], true) := by
  refine ⟨?_, by decide, by decide⟩
  intro isWasm blk s d h
  unfold runOnBasicBlock at h
  dsimp only at h
  rcases flushRun_store_provenance _ _ _ _ h with h1 | h1
  · rcases foldl_store_provenance _ _ _ _ _ h1 with h2 | h2 | h2
    · simp at h2
    · exact Or.inl h2
    · exact Or.inr h2
  · exact Or.inr h1

theorem width_cap_on_produced_stores_witness :
    Instr.store 6 ⟨basePtr, .constInt 32 0x44332211, 4⟩ ∈ scenarioABlock ∨
      getTypeAllocSize (StoreData.mk basePtr (.constInt 32 0x44332211) 4).val.ty ≤
        widthCap false :=
  width_cap_on_produced_stores.1 false scenarioABlock 6
    ⟨basePtr, .constInt 32 0x44332211, 4⟩ (by decide)

end StoreMerging

namespace StoreMerging

/-! ### Characterization of the pair scan body -/

theorem tryMergePair_none_left (w : Bool) (dim : Nat) (recs : List StoreAndOffset)
    (p : List Instr) (f i : Nat) (hra : recs[i]? = none) :
    tryMergePair w dim recs p f i = none := by
  unfold tryMergePair
  rw [hra]

theorem tryMergePair_none_right (w : Bool) (dim : Nat) (recs : List StoreAndOffset)
    (p : List Instr) (f i : Nat) (hrb : recs[i + 1]? = none) :
    tryMergePair w dim recs p f i = none := by
  unfold tryMergePair
  rw [hrb]
  cases recs[i]? <;> rfl

theorem tryMergePair_none_of_skip (w : Bool) (dim : Nat) (recs : List StoreAndOffset)
    (p : List Instr) (f i : Nat) (ra rb : StoreAndOffset)
    (hra : recs[i]? = some ra) (hrb : recs[i + 1]? = some rb)
    (hskip : pairSkip w dim ra rb) :
    tryMergePair w dim recs p f i = none := by
  unfold tryMergePair
  rw [hra, hrb]
  dsimp only
  by_cases h1 : ra.size ≠ dim
  · rw [if_pos h1]
  · rw [if_neg h1]
    by_cases h2 : rb.size ≠ dim
    · rw [if_pos h2]
    · rw [if_neg h2]
      by_cases h3 : (dim : Int) + ra.offset ≠ rb.offset
      · rw [if_pos h3]
      · rw [if_neg h3]
        have hmb : mergeBlocked w dim ra rb := by
          rcases hskip with h | h | h | h
          · exact absurd h h1
          · exact absurd h h2
          · exact absurd h h3
          · exact h
        by_cases h4 : ¬ w = true ∧ ra.sdata.align < dim * 2
        · rw [if_pos h4]
        · rw [if_neg h4]
          by_cases h5 : (ra.sdata.val.ty.isFloatTy || ra.sdata.val.ty.isVectorTy) = true
          · rw [if_pos h5]
          · rw [if_neg h5]
            by_cases h6 : (rb.sdata.val.ty.isFloatTy || rb.sdata.val.ty.isVectorTy) = true
            · rw [if_pos h6]
            · rw [if_neg h6]
              have h7 : selectStrategy ra.sdata.val rb.sdata.val = .NOT_CONVENIENT := by
                rcases hmb with h | h | h | h
                · exact absurd h h4
                · exact absurd h h5
                · exact absurd h h6
                · exact h
              rw [if_pos h7]

theorem pairSkip_of_tryMergePair_none (w : Bool) (dim : Nat)
    (recs : List StoreAndOffset) (p : List Instr) (f i : Nat)
    (ra rb : StoreAndOffset)
    (hra : recs[i]? = some ra) (hrb : recs[i + 1]? = some rb)
    (h : tryMergePair w dim recs p f i = none) : pairSkip w dim ra rb := by
  by_contra hns
  unfold pairSkip mergeBlocked at hns
  push_neg at hns
  obtain ⟨n1, n2, n3, n4, n5, n6, n7⟩ := hns
  unfold tryMergePair at h
  rw [hra, hrb] at h
  dsimp only at h
  rw [if_neg (by simpa using n1), if_neg (by simpa using n2),
      if_neg (by simpa using n3),
      if_neg (fun hc => absurd (n4 hc.1) (by omega)),
      if_neg n5, if_neg n6, if_neg n7] at h
  cases hs : selectStrategy ra.sdata.val rb.sdata.val with
  | NOT_CONVENIENT => exact n7 hs
  | CONSTANT => rw [hs] at h; simp [buildMergedValue] at h
  | ZERO_EXTEND => rw [hs] at h; simp [buildMergedValue] at h

theorem pairSkip_congr (w : Bool) (dim : Nat) (ra rb ra2 rb2 : StoreAndOffset)
    (ha : core ra = core ra2) (hb : core rb = core rb2) :
    pairSkip w dim ra rb ↔ pairSkip w dim ra2 rb2 := by
  unfold core at ha hb
  simp only [Prod.mk.injEq] at ha hb
  obtain ⟨-, hads, hasz, haoff⟩ := ha
  obtain ⟨-, hbds, hbsz, hboff⟩ := hb
  unfold pairSkip mergeBlocked
  rw [hads, hasz, haoff, hbds, hbsz, hboff]

theorem tryMergePair_none_congr (w : Bool) (dim : Nat)
    (recs recs2 : List StoreAndOffset) (p p2 : List Instr) (f f2 i j : Nat)
    (h1 : recs[i]?.map core = recs2[j]?.map core)
    (h2 : recs[i + 1]?.map core = recs2[j + 1]?.map core) :
    (tryMergePair w dim recs p f i = none ↔
      tryMergePair w dim recs2 p2 f2 j = none) := by
  cases hra : recs[i]? with
  | none =>
    rw [hra] at h1
    cases hra2 : recs2[j]? with
    | none =>
      exact iff_of_true (tryMergePair_none_left _ _ _ _ _ _ hra)
        (tryMergePair_none_left _ _ _ _ _ _ hra2)
    | some ra2 => rw [hra2] at h1; exact absurd h1 (by simp)
  | some ra =>
    rw [hra] at h1
    cases hra2 : recs2[j]? with
    | none => rw [hra2] at h1; exact absurd h1 (by simp)
    | some ra2 =>
      rw [hra2] at h1
      replace h1 : core ra = core ra2 := by simpa using h1
      cases hrb : recs[i + 1]? with
      | none =>
        rw [hrb] at h2
        cases hrb2 : recs2[j + 1]? with
        | none =>
          exact iff_of_true (tryMergePair_none_right _ _ _ _ _ _ hrb)
            (tryMergePair_none_right _ _ _ _ _ _ hrb2)
        | some rb2 => rw [hrb2] at h2; exact absurd h2 (by simp)
      | some rb =>
        rw [hrb] at h2
        cases hrb2 : recs2[j + 1]? with
        | none => rw [hrb2] at h2; exact absurd h2 (by simp)
        | some rb2 =>
          rw [hrb2] at h2
          replace h2 : core rb = core rb2 := by simpa using h2
          constructor
          · intro h
            exact tryMergePair_none_of_skip _ _ _ _ _ _ _ _ hra2 hrb2
              ((pairSkip_congr w dim ra rb ra2 rb2 h1 h2).mp
                (pairSkip_of_tryMergePair_none _ _ _ _ _ _ _ _ hra hrb h))
          · intro h
            exact tryMergePair_none_of_skip _ _ _ _ _ _ _ _ hra hrb
              ((pairSkip_congr w dim ra rb ra2 rb2 h1 h2).mpr
                (pairSkip_of_tryMergePair_none _ _ _ _ _ _ _ _ hra2 hrb2 h))

theorem tryMergePair_some_spec (w : Bool) (dim : Nat)
    (recs : List StoreAndOffset) (p : List Instr) (f i : Nat)
    (recs1 : List StoreAndOffset) (p1 : List Instr) (f1 : Nat)
    (h : tryMergePair w dim recs p f i = some (recs1, p1, f1)) :
    ∃ ra rb sum news,
      recs[i]? = some ra ∧ recs[i + 1]? = some rb ∧
      ra.size = dim ∧ rb.size = dim ∧ rb.offset = (dim : Int) + ra.offset ∧
      ¬ mergeBlocked w dim ra rb ∧
      sum.ty = .integer (dim * 16) ∧
      (∀ x ∈ news, x = Instr.other false) ∧
      recs1 = (recs.set i (mergedRecord f dim ra sum)).set (i + 1) (tombRecord rb) ∧
      p1 = eraseStore rb.sid (eraseStore ra.sid (insertBefore ra.sid
        (news ++ [.store f (mergedStoreData ra sum)]) p)) ∧
      f1 = f + 1 := by
  unfold tryMergePair at h
  cases hra : recs[i]? with
  | none => rw [hra] at h; exact Option.noConfusion h
  | some ra =>
  cases hrb : recs[i + 1]? with
  | none => rw [hra, hrb] at h; exact Option.noConfusion h
  | some rb =>
  rw [hra, hrb] at h
  dsimp only at h
  refine ⟨ra, rb, ?_⟩
  split at h
  · exact Option.noConfusion h
  next hs1 =>
  split at h
  · exact Option.noConfusion h
  next hs2 =>
  split at h
  · exact Option.noConfusion h
  next hs3 =>
  split at h
  · exact Option.noConfusion h
  next hs4 =>
  split at h
  · exact Option.noConfusion h
  next hs5 =>
  split at h
  · exact Option.noConfusion h
  next hs6 =>
  split at h
  · exact Option.noConfusion h
  next hs7 =>
  split at h
  · exact Option.noConfusion h
  next sum emitted heq =>
  simp only [Option.some.injEq, Prod.mk.injEq] at h
  obtain ⟨hrecs, hp, hf⟩ := h
  refine ⟨sum, emitted ++ (createBitCast ra.sdata.ptr .pointer).2, rfl, rfl,
    not_not.mp hs1, not_not.mp hs2, (not_not.mp hs3).symm, ?_, ?_, ?_, ?_, ?_, ?_⟩
  · intro hmb
    rcases hmb with hc | hc | hc | hc
    · exact hs4 hc
    · exact hs5 hc
    · exact hs6 hc
    · exact hs7 hc
  · exact buildMergedValue_sum_ty _ _ _ _ _ _ heq
  · intro x hx
    rcases List.mem_append.mp hx with hx | hx
    · exact buildMergedValue_snd_eq_other _ _ _ _ _ _ heq _ hx
    · exact createBitCast_snd_eq_other _ _ _ hx
  · exact hrecs.symm
  · rw [← hp]
    simp only [mergedStoreData, List.append_assoc]
  · exact hf.symm

/-- The executor scan makes no change when every adjacent pair is
skipped. -/
theorem processDimLoop_no_merge (w : Bool) (dim N : Nat)
    (recs : List StoreAndOffset) (p : List Instr) (f : Nat)
    (hnone : ∀ j, tryMergePair w dim recs p f j = none) :
    ∀ (fuel i : Nat) (ch : Bool),
      processDimLoop w dim N fuel i recs p f ch = (recs, p, f, ch) := by
  intro fuel
  induction fuel with
  | zero => intro i ch; rfl
  | succ fuel ih =>
    intro i ch
    rw [processDimLoop]
    split
    · rw [hnone i]
      exact ih _ _
    · rfl

end StoreMerging

namespace StoreMerging

/-! ### Bookkeeping lemmas for segments and surgery -/

theorem storesOf_append (a b : List Instr) :
    storesOf (a ++ b) = storesOf a ++ storesOf b := by
  simp [storesOf, List.filterMap_append]

theorem sidsOf_eq_map_fst (l : List Instr) :
    sidsOf l = (storesOf l).map Prod.fst := by
  induction l with
  | nil => rfl
  | cons i rest ih => cases i <;> simp [sidsOf, storesOf] at ih ⊢ <;> exact ih

theorem storesOf_eq_nil_of_noStore (l : List Instr)
    (h : ∀ x ∈ l, x = Instr.other false) : storesOf l = [] := by
  induction l with
  | nil => rfl
  | cons i rest ih =>
    have hi := h i (List.mem_cons_self _ _)
    subst hi
    exact ih (fun x hx => h x (List.mem_cons_of_mem _ hx))

theorem storesOf_cons_store (s : Nat) (d : StoreData) (rest : List Instr) :
    storesOf (.store s d :: rest) = (s, d) :: storesOf rest := rfl

theorem sidsOf_cons_store (s : Nat) (d : StoreData) (rest : List Instr) :
    sidsOf (.store s d :: rest) = s :: sidsOf rest := rfl

theorem sidsOf_cons_other (e : Bool) (rest : List Instr) :
    sidsOf (.other e :: rest) = sidsOf rest := rfl

theorem storesOf_cons_other (e : Bool) (rest : List Instr) :
    storesOf (.other e :: rest) = storesOf rest := rfl

theorem mem_storesOf_iff (l : List Instr) (sid : Nat) (sd : StoreData) :
    (sid, sd) ∈ storesOf l ↔ Instr.store sid sd ∈ l := by
  induction l with
  | nil => simp [storesOf]
  | cons i rest ih =>
    cases i with
    | store s d =>
      rw [storesOf_cons_store]
      simp [ih, Prod.ext_iff, Instr.store.injEq]
    | other e =>
      rw [storesOf_cons_other]
      simp [ih]

theorem segRecordsAux_cons_store (k s : Nat) (d : StoreData) (rest : List Instr) :
    segRecordsAux k (.store s d :: rest) =
      ⟨s, d, getTypeAllocSize d.val.ty, (findBasePointerAndOffset d.ptr).2, k⟩ ::
        segRecordsAux (k + 1) rest := rfl

theorem segRecordsAux_cons_other (k : Nat) (e : Bool) (rest : List Instr) :
    segRecordsAux k (.other e :: rest) = segRecordsAux k rest := rfl

theorem segRecordsAux_map_core (k : Nat) (l : List Instr) :
    (segRecordsAux k l).map core = (storesOf l).map coreOfStore := by
  induction l generalizing k with
  | nil => rfl
  | cons i rest ih =>
    cases i with
    | store s d => simp [segRecordsAux, storesOf, core, coreOfStore, ih]
    | other e => simp [segRecordsAux, storesOf, ih]

theorem segRecordsAux_append_store (k : Nat) (l : List Instr) (sid : Nat)
    (sd : StoreData) :
    segRecordsAux k (l ++ [.store sid sd]) = segRecordsAux k l ++
      [⟨sid, sd, getTypeAllocSize sd.val.ty, (findBasePointerAndOffset sd.ptr).2,
        k + (storesOf l).length⟩] := by
  induction l generalizing k with
  | nil => simp [segRecordsAux, storesOf]
  | cons i rest ih =>
    cases i with
    | store s d =>
      rw [List.cons_append, segRecordsAux_cons_store, ih (k + 1),
        segRecordsAux_cons_store, storesOf_cons_store, List.length_cons,
        List.cons_append]
      have harith : k + 1 + (storesOf rest).length =
          k + ((storesOf rest).length + 1) := by
        omega
      rw [harith]
    | other e =>
      rw [List.cons_append, segRecordsAux_cons_other, ih k,
        segRecordsAux_cons_other, storesOf_cons_other]

theorem segRecordsAux_append_other (k : Nat) (l : List Instr) (e : Bool) :
    segRecordsAux k (l ++ [.other e]) = segRecordsAux k l := by
  induction l generalizing k with
  | nil => rfl
  | cons i rest ih => cases i <;> simp [segRecordsAux, ih]

theorem segRecordsAux_length (k : Nat) (l : List Instr) :
    (segRecordsAux k l).length = (storesOf l).length := by
  induction l generalizing k with
  | nil => rfl
  | cons i rest ih => cases i <;> simp [segRecordsAux, storesOf, ih]

theorem segRecordsAux_noStore_prefix (A X : List Instr) (k : Nat)
    (h : ∀ x ∈ A, x = Instr.other false) :
    segRecordsAux k (A ++ X) = segRecordsAux k X := by
  induction A with
  | nil => rfl
  | cons i rest ih =>
    have hi := h i (List.mem_cons_self _ _)
    subst hi
    simpa [segRecordsAux] using ih (fun x hx => h x (List.mem_cons_of_mem _ hx))

theorem mem_segRecordsAux (k : Nat) (l : List Instr) (r : StoreAndOffset)
    (h : r ∈ segRecordsAux k l) :
    r.size = getTypeAllocSize r.sdata.val.ty ∧
    r.offset = (findBasePointerAndOffset r.sdata.ptr).2 ∧
    Instr.store r.sid r.sdata ∈ l := by
  induction l generalizing k with
  | nil => simp [segRecordsAux] at h
  | cons i rest ih =>
    cases i with
    | store s d =>
      rw [segRecordsAux] at h
      rcases List.mem_cons.mp h with h | h
      · subst h
        exact ⟨rfl, rfl, List.mem_cons_self _ _⟩
      · obtain ⟨h1, h2, h3⟩ := ih _ h
        exact ⟨h1, h2, List.mem_cons_of_mem _ h3⟩
    | other e =>
      rw [segRecordsAux] at h
      obtain ⟨h1, h2, h3⟩ := ih _ h
      exact ⟨h1, h2, List.mem_cons_of_mem _ h3⟩

theorem mem_of_mem_storesOf_eraseStore (sid x : Nat) (xd : StoreData)
    (l : List Instr) (h : Instr.store x xd ∈ l) (hne : x ≠ sid) :
    Instr.store x xd ∈ eraseStore sid l := by
  induction l with
  | nil => simp at h
  | cons i rest ih =>
    unfold eraseStore
    split
    · next hid =>
      rcases List.mem_cons.mp h with h | h
      · exfalso
        rw [← h] at hid
        simp [Instr.isStoreWithId] at hid
        exact hne hid
      · exact h
    · rcases List.mem_cons.mp h with h | h
      · exact h ▸ List.mem_cons_self _ _
      · exact List.mem_cons_of_mem _ (ih h)

theorem mem_insertBefore_of_mem (sid : Nat) (news l : List Instr) (x : Instr)
    (h : x ∈ l) : x ∈ insertBefore sid news l := by
  induction l with
  | nil => simp at h
  | cons i rest ih =>
    unfold insertBefore
    split
    · exact List.mem_append.mpr (Or.inr h)
    · rcases List.mem_cons.mp h with h | h
      · exact h ▸ List.mem_cons_self _ _
      · exact List.mem_cons_of_mem _ (ih h)

theorem storesOf_eraseStore_perm (sid : Nat) (sd : StoreData) (l : List Instr)
    (hnd : (sidsOf l).Nodup) (hmem : Instr.store sid sd ∈ l) :
    List.Perm (storesOf l) ((sid, sd) :: storesOf (eraseStore sid l)) := by
  induction l with
  | nil => simp at hmem
  | cons i rest ih =>
    cases i with
    | store s d =>
      rw [sidsOf_cons_store] at hnd
      rw [eraseStore]
      by_cases hs : s = sid
      · subst hs
        have hd : d = sd := by
          rcases List.mem_cons.mp hmem with h | h
          · injection h with h1 h2
            exact h2.symm
          · exfalso
            have hm : s ∈ sidsOf rest := by
              rw [sidsOf_eq_map_fst]
              exact List.mem_map.mpr ⟨(s, sd), (mem_storesOf_iff _ _ _).mpr h, rfl⟩
            exact (List.nodup_cons.mp hnd).1 hm
        subst hd
        rw [if_pos (by simp [Instr.isStoreWithId])]
        rw [storesOf_cons_store]
      · rw [if_neg (by simp [Instr.isStoreWithId, hs])]
        have hmem2 : Instr.store sid sd ∈ rest := by
          rcases List.mem_cons.mp hmem with h | h
          · exfalso
            injection h with h1 h2
            exact hs h1.symm
          · exact h
        have hperm := ih (List.nodup_cons.mp hnd).2 hmem2
        rw [storesOf_cons_store, storesOf_cons_store]
        exact (hperm.cons (s, d)).trans (List.Perm.swap _ _ _)
    | other e =>
      rw [eraseStore, if_neg (by simp [Instr.isStoreWithId])]
      rw [sidsOf_cons_other] at hnd
      have hperm := ih hnd ((List.mem_cons.mp hmem).resolve_left (by simp))
      rw [storesOf_cons_other, storesOf_cons_other]
      exact hperm

theorem storesOf_insertBefore_perm (sid : Nat) (news l : List Instr)
    (hmem : sid ∈ sidsOf l) :
    List.Perm (storesOf (insertBefore sid news l)) (storesOf news ++ storesOf l) := by
  induction l with
  | nil => simp [sidsOf] at hmem
  | cons i rest ih =>
    unfold insertBefore
    split
    · rw [storesOf_append]
    · next hni =>
      cases i with
      | store s d =>
        have hs : s ≠ sid := by
          simpa [Instr.isStoreWithId] using hni
        have hmem2 : sid ∈ sidsOf rest := by
          rw [sidsOf_cons_store] at hmem
          exact (List.mem_cons.mp hmem).resolve_left (fun h => hs h.symm)
        have hperm := ih hmem2
        rw [storesOf_cons_store, storesOf_cons_store]
        exact ((hperm.cons (s, d)).trans List.perm_middle.symm)
      | other e =>
        have hmem2 : sid ∈ sidsOf rest := by
          rw [sidsOf_cons_other] at hmem
          exact hmem
        have hperm := ih hmem2
        rw [storesOf_cons_other, storesOf_cons_other]
        exact hperm

theorem sidsOf_insertBefore_perm (sid : Nat) (news l : List Instr)
    (hmem : sid ∈ sidsOf l) :
    List.Perm (sidsOf (insertBefore sid news l)) (sidsOf news ++ sidsOf l) := by
  rw [sidsOf_eq_map_fst, sidsOf_eq_map_fst, sidsOf_eq_map_fst, ← List.map_append]
  exact (storesOf_insertBefore_perm sid news l hmem).map Prod.fst

theorem sidsOf_eraseStore_perm (sid : Nat) (sd : StoreData) (l : List Instr)
    (hnd : (sidsOf l).Nodup) (hmem : Instr.store sid sd ∈ l) :
    List.Perm (sidsOf l) (sid :: sidsOf (eraseStore sid l)) := by
  have := (storesOf_eraseStore_perm sid sd l hnd hmem).map Prod.fst
  rw [← sidsOf_eq_map_fst] at this
  simpa [sidsOf_eq_map_fst] using this

end StoreMerging

namespace StoreMerging

/-! ### Small facts feeding the pass invariant -/

theorem findBase_createBitCast (v : Value) (t : Ty) :
    findBasePointerAndOffset ((createBitCast v t).1) =
      findBasePointerAndOffset v := by
  unfold createBitCast
  split
  · rfl
  · rfl

theorem allocSize_bigType (dim : Nat) :
    getTypeAllocSize (.integer (dim * 16)) = dim * 2 := by
  simp only [getTypeAllocSize]
  omega

theorem nodup_pair_lookup {α β : Type} (l : List (α × β)) (a : α) (b c : β)
    (hnd : (l.map Prod.fst).Nodup) (h1 : (a, b) ∈ l) (h2 : (a, c) ∈ l) :
    b = c := by
  induction l with
  | nil => simp at h1
  | cons x rest ih =>
    simp only [List.map_cons, List.nodup_cons] at hnd
    rcases List.mem_cons.mp h1 with h1 | h1
    · rcases List.mem_cons.mp h2 with h2 | h2
      · rw [← h1] at h2
        injection h2 with _ h
        exact h.symm
      · exfalso
        apply hnd.1
        rw [← h1]
        exact List.mem_map.mpr ⟨(a, c), h2, rfl⟩
    · rcases List.mem_cons.mp h2 with h2 | h2
      · exfalso
        apply hnd.1
        rw [← h2]
        exact List.mem_map.mpr ⟨(a, b), h1, rfl⟩
      · exact ih hnd.2 h1 h2

theorem list_decomp_two {α : Type} (l : List α) (i : Nat) (a b : α)
    (ha : l[i]? = some a) (hb : l[i + 1]? = some b) :
    l = l.take i ++ a :: b :: l.drop (i + 2) ∧ (l.take i).length = i := by
  have hi : i < l.length := by
    by_contra h
    rw [List.getElem?_eq_none (by omega)] at ha
    exact Option.noConfusion ha
  have hi1 : i + 1 < l.length := by
    by_contra h
    rw [List.getElem?_eq_none (by omega)] at hb
    exact Option.noConfusion hb
  have hga : l[i] = a := by
    have := List.getElem?_eq_getElem hi
    rw [this] at ha
    exact Option.some.inj ha
  have hgb : l[i + 1] = b := by
    have := List.getElem?_eq_getElem hi1
    rw [this] at hb
    exact Option.some.inj hb
  constructor
  · conv_lhs => rw [← List.take_append_drop i l]
    rw [← hga, ← hgb, List.getElem_cons_drop, List.getElem_cons_drop]
  · rw [List.length_take]
    omega

theorem set_two_append {α : Type} (T R : List α) (a b A B : α) :
    ((T ++ a :: b :: R).set T.length A).set (T.length + 1) B =
      T ++ A :: B :: R := by
  rw [List.set_append_right _ _ (Nat.le_refl _)]
  simp only [Nat.sub_self, List.set_cons_zero]
  rw [List.set_append_right _ _ (by omega)]
  have h1 : T.length + 1 - T.length = 1 := by omega
  rw [h1]
  rfl

theorem set_two_append_idx {α : Type} (T R : List α) (a b A B : α) (i : Nat)
    (hi : i = T.length) :
    ((T ++ a :: b :: R).set i A).set (i + 1) B = T ++ A :: B :: R := by
  subst hi
  exact set_two_append T R a b A B

end StoreMerging

namespace StoreMerging

theorem mem_of_getElem?_some {α : Type} {l : List α} {i : Nat} {a : α}
    (h : l[i]? = some a) : a ∈ l := by
  have hi : i < l.length := by
    by_contra hc
    rw [List.getElem?_eq_none (by omega)] at h
    exact Option.noConfusion h
  rw [List.getElem?_eq_getElem hi] at h
  rw [← Option.some.inj h]
  exact List.getElem_mem hi

theorem lt_length_of_getElem?_some {α : Type} {l : List α} {i : Nat} {a : α}
    (h : l[i]? = some a) : i < l.length := by
  by_contra hc
  rw [List.getElem?_eq_none (by omega)] at h
  exact Option.noConfusion h

theorem aliveCores_decomp (T R : List StoreAndOffset) (ra rb : StoreAndOffset)
    (hra : ra.size ≠ 0) (hrb : rb.size ≠ 0) :
    aliveCores (T ++ ra :: rb :: R) =
      aliveCores T ++ core ra :: core rb :: aliveCores R := by
  unfold aliveCores filterAlreadyProcessedStores
  rw [List.filter_append, List.filter_cons_of_pos (by simpa using hra),
    List.filter_cons_of_pos (by simpa using hrb)]
  simp

theorem aliveCores_decomp_merged (T R : List StoreAndOffset)
    (A B : StoreAndOffset) (hA : A.size ≠ 0) (hB : B.size = 0) :
    aliveCores (T ++ A :: B :: R) = aliveCores T ++ core A :: aliveCores R := by
  unfold aliveCores filterAlreadyProcessedStores
  rw [List.filter_append, List.filter_cons_of_pos (by simpa using hA),
    List.filter_cons_of_neg (by simpa using hB)]
  simp

theorem store_mem_of_core_mem (p : List Instr) (r : StoreAndOffset)
    (h : core r ∈ (segRecords p).map core) :
    Instr.store r.sid r.sdata ∈ p := by
  rw [segRecords, segRecordsAux_map_core] at h
  obtain ⟨⟨sid, sd⟩, hmem, heq⟩ := List.mem_map.mp h
  unfold coreOfStore core at heq
  have h1 : sid = r.sid := congrArg (fun x => x.1) heq
  have h2 : sd = r.sdata := congrArg (fun x => x.2.1) heq
  rw [← h1, ← h2]
  exact (mem_storesOf_iff _ _ _).mp hmem

theorem core_mem_aliveCores (recs : List StoreAndOffset) (i : Nat)
    (r : StoreAndOffset) (hr : recs[i]? = some r) (hsz : r.size ≠ 0) :
    core r ∈ aliveCores recs := by
  unfold aliveCores
  refine List.mem_map.mpr ⟨r, ?_, rfl⟩
  unfold filterAlreadyProcessedStores
  exact List.mem_filter.mpr ⟨mem_of_getElem?_some hr, by simpa using hsz⟩

theorem coreOfStore_eq_core (r : StoreAndOffset)
    (hsz : r.size = getTypeAllocSize r.sdata.val.ty)
    (hoff : r.offset = (findBasePointerAndOffset r.sdata.ptr).2) :
    coreOfStore (r.sid, r.sdata) = core r := by
  unfold coreOfStore core
  rw [← hsz, ← hoff]

theorem coreOfStore_merged (f dim : Nat) (ra : StoreAndOffset) (sum : Value)
    (hty : sum.ty = .integer (dim * 16))
    (hoff : ra.offset = (findBasePointerAndOffset ra.sdata.ptr).2) :
    coreOfStore (f, mergedStoreData ra sum) = core (mergedRecord f dim ra sum) := by
  unfold coreOfStore core mergedRecord mergedStoreData
  simp only [hty, allocSize_bigType, findBase_createBitCast, ← hoff]

theorem sidsOf_mem_of_store_mem (l : List Instr) (sid : Nat) (sd : StoreData)
    (h : Instr.store sid sd ∈ l) : sid ∈ sidsOf l := by
  rw [sidsOf_eq_map_fst]
  exact List.mem_map.mpr ⟨(sid, sd), (mem_storesOf_iff _ _ _).mpr h, rfl⟩

end StoreMerging

namespace StoreMerging

theorem mergedRecord_offset (f dim : Nat) (ra : StoreAndOffset) (sum : Value) :
    (mergedRecord f dim ra sum).offset = ra.offset := rfl

theorem mergedRecord_size (f dim : Nat) (ra : StoreAndOffset) (sum : Value) :
    (mergedRecord f dim ra sum).size = dim * 2 := rfl

theorem mergedRecord_sdata (f dim : Nat) (ra : StoreAndOffset) (sum : Value) :
    (mergedRecord f dim ra sum).sdata = mergedStoreData ra sum := rfl

theorem tombRecord_offset (rb : StoreAndOffset) :
    (tombRecord rb).offset = rb.offset := rfl

theorem tombRecord_size (rb : StoreAndOffset) : (tombRecord rb).size = 0 := rfl

/-- Re-establishing the pass invariant across one merge of the executor
scan, together with the shape of the updated record vector. -/
theorem passInv_merge_step (w : Bool) (dim : Nat) (hdim : 1 ≤ dim)
    (p0base : Value) (recs0 recs : List StoreAndOffset) (p : List Instr)
    (f i : Nat) (recs1 : List StoreAndOffset) (p1 : List Instr) (f1 : Nat)
    (hinv : PassInv w dim p0base recs0 recs p f)
    (hm : tryMergePair w dim recs p f i = some (recs1, p1, f1)) :
    PassInv w dim p0base recs0 recs1 p1 f1 ∧ f ≤ f1 ∧
    (∃ A, recs1[i]? = some A ∧ A.size = dim * 2) ∧
    (∃ B, recs1[i + 1]? = some B ∧ B.size = 0) ∧
    (∀ j, j ≠ i → j ≠ i + 1 → recs1[j]? = recs[j]?) := by
  obtain ⟨ra, rb, sum, news, hra, hrb, hsa, hsb, hoffb, hnmb, hty, hnews, hrecs1,
    hp1, hf1⟩ := tryMergePair_some_spec w dim recs p f i recs1 p1 f1 hm
  have hilt : i < recs.length := lt_length_of_getElem?_some hra
  have hi1lt : i + 1 < recs.length := lt_length_of_getElem?_some hrb
  have hszra : ra.size ≠ 0 := by omega
  have hszrb : rb.size ≠ 0 := by omega
  have hconsra := hinv.rcons ra (mem_of_getElem?_some hra) hszra
  have hconsrb := hinv.rcons rb (mem_of_getElem?_some hrb) hszrb
  obtain ⟨hdec, hTlen⟩ := list_decomp_two recs i ra rb hra hrb
  have hrecs1' : recs1 = recs.take i ++ mergedRecord f dim ra sum ::
      tombRecord rb :: recs.drop (i + 2) := by
    rw [hrecs1]
    conv_lhs => rw [hdec]
    exact set_two_append_idx _ _ ra rb _ _ i hTlen.symm
  have h_at_i : recs1[i]? = some (mergedRecord f dim ra sum) := by
    rw [hrecs1, List.getElem?_set_ne (by omega : i + 1 ≠ i)]
    simp [List.getElem?_set_self, hilt]
  have h_at_i1 : recs1[i + 1]? = some (tombRecord rb) := by
    rw [hrecs1]
    simp [List.getElem?_set_self, hi1lt]
  have h_other : ∀ j, j ≠ i → j ≠ i + 1 → recs1[j]? = recs[j]? := by
    intro j hj1 hj2
    rw [hrecs1, List.getElem?_set_ne (Ne.symm hj2), List.getElem?_set_ne (Ne.symm hj1)]
  -- surgery bookkeeping
  have hstore_ra : Instr.store ra.sid ra.sdata ∈ p :=
    store_mem_of_core_mem p ra
      (hinv.ms.mem_iff.mpr (core_mem_aliveCores recs i ra hra hszra))
  have hstore_rb : Instr.store rb.sid rb.sdata ∈ p :=
    store_mem_of_core_mem p rb
      (hinv.ms.mem_iff.mpr (core_mem_aliveCores recs (i + 1) rb hrb hszrb))
  have hmapfst : ((storesOf p).map Prod.fst).Nodup := by
    rw [← sidsOf_eq_map_fst]
    exact hinv.sids_nodup
  have hsid_ne : ra.sid ≠ rb.sid := by
    intro h
    have hsd : ra.sdata = rb.sdata := by
      refine nodup_pair_lookup (storesOf p) ra.sid _ _ hmapfst
        ((mem_storesOf_iff _ _ _).mpr hstore_ra) ?_
      rw [h]
      exact (mem_storesOf_iff _ _ _).mpr hstore_rb
    have hoffeq : ra.offset = rb.offset := by
      rw [hconsra.2.1, hconsrb.2.1, hsd]
    omega
  have hfresh_notin : f ∉ sidsOf p :=
    fun h => absurd (hinv.fresh_bound f h) (by omega)
  have hnews_stores : storesOf (news ++ [.store f (mergedStoreData ra sum)]) =
      [(f, mergedStoreData ra sum)] := by
    rw [storesOf_append, storesOf_eq_nil_of_noStore news hnews]
    rfl
  have hsid_ra_mem : ra.sid ∈ sidsOf p := sidsOf_mem_of_store_mem _ _ _ hstore_ra
  have perm1 : List.Perm
      (storesOf (insertBefore ra.sid (news ++ [.store f (mergedStoreData ra sum)]) p))
      ((f, mergedStoreData ra sum) :: storesOf p) := by
    have hh := storesOf_insertBefore_perm ra.sid
      (news ++ [.store f (mergedStoreData ra sum)]) p hsid_ra_mem
    rwa [hnews_stores] at hh
  have hsids_ins : List.Perm
      (sidsOf (insertBefore ra.sid (news ++ [.store f (mergedStoreData ra sum)]) p))
      (f :: sidsOf p) := by
    have hh := sidsOf_insertBefore_perm ra.sid
      (news ++ [.store f (mergedStoreData ra sum)]) p hsid_ra_mem
    have h2 : sidsOf (news ++ [.store f (mergedStoreData ra sum)]) = [f] := by
      rw [sidsOf_eq_map_fst, hnews_stores]
      rfl
    rwa [h2] at hh
  have hnodup_ins : (sidsOf (insertBefore ra.sid
      (news ++ [.store f (mergedStoreData ra sum)]) p)).Nodup :=
    (hsids_ins.nodup_iff).mpr (List.nodup_cons.mpr ⟨hfresh_notin, hinv.sids_nodup⟩)
  have hmem_ra_ins : Instr.store ra.sid ra.sdata ∈
      insertBefore ra.sid (news ++ [.store f (mergedStoreData ra sum)]) p :=
    mem_insertBefore_of_mem _ _ _ _ hstore_ra
  have permE1 : List.Perm
      (storesOf (insertBefore ra.sid (news ++ [.store f (mergedStoreData ra sum)]) p))
      ((ra.sid, ra.sdata) :: storesOf (eraseStore ra.sid
        (insertBefore ra.sid (news ++ [.store f (mergedStoreData ra sum)]) p))) :=
    storesOf_eraseStore_perm _ _ _ hnodup_ins hmem_ra_ins
  have hsids_e1 : List.Perm
      (sidsOf (insertBefore ra.sid (news ++ [.store f (mergedStoreData ra sum)]) p))
      (ra.sid :: sidsOf (eraseStore ra.sid
        (insertBefore ra.sid (news ++ [.store f (mergedStoreData ra sum)]) p))) :=
    sidsOf_eraseStore_perm _ _ _ hnodup_ins hmem_ra_ins
  have hnodup_e1 : (sidsOf (eraseStore ra.sid
      (insertBefore ra.sid (news ++ [.store f (mergedStoreData ra sum)]) p))).Nodup :=
    (List.nodup_cons.mp ((hsids_e1.nodup_iff).mp hnodup_ins)).2
  have hmem_rb_e1 : Instr.store rb.sid rb.sdata ∈ eraseStore ra.sid
      (insertBefore ra.sid (news ++ [.store f (mergedStoreData ra sum)]) p) :=
    mem_of_mem_storesOf_eraseStore _ _ _ _
      (mem_insertBefore_of_mem _ _ _ _ hstore_rb) (Ne.symm hsid_ne)
  have permP1 : List.Perm
      (storesOf (eraseStore ra.sid
        (insertBefore ra.sid (news ++ [.store f (mergedStoreData ra sum)]) p)))
      ((rb.sid, rb.sdata) :: storesOf p1) := by
    rw [hp1]
    exact storesOf_eraseStore_perm _ _ _ hnodup_e1 hmem_rb_e1
  have hsids_p1 : List.Perm
      (sidsOf (eraseStore ra.sid
        (insertBefore ra.sid (news ++ [.store f (mergedStoreData ra sum)]) p)))
      (rb.sid :: sidsOf p1) := by
    rw [hp1]
    exact sidsOf_eraseStore_perm _ _ _ hnodup_e1 hmem_rb_e1
  have hnodup_p1 : (sidsOf p1).Nodup :=
    (List.nodup_cons.mp ((hsids_p1.nodup_iff).mp hnodup_e1)).2
  have hcra : coreOfStore (ra.sid, ra.sdata) = core ra :=
    coreOfStore_eq_core ra hconsra.1 hconsra.2.1
  have hcrb : coreOfStore (rb.sid, rb.sdata) = core rb :=
    coreOfStore_eq_core rb hconsrb.1 hconsrb.2.1
  have hcnew : coreOfStore (f, mergedStoreData ra sum) =
      core (mergedRecord f dim ra sum) :=
    coreOfStore_merged f dim ra sum hty hconsra.2.1
  have chain : List.Perm
      (core (mergedRecord f dim ra sum) :: (segRecords p).map core)
      (core ra :: core rb :: (segRecords p1).map core) := by
    have c1 := (perm1.symm.trans (permE1.trans
      (permP1.cons (ra.sid, ra.sdata)))).map coreOfStore
    rw [List.map_cons, List.map_cons, List.map_cons, hcra, hcrb, hcnew] at c1
    rw [segRecords, segRecordsAux_map_core, segRecords, segRecordsAux_map_core]
    exact c1
  have hmsold : List.Perm ((segRecords p).map core)
      (aliveCores (recs.take i) ++ core ra :: core rb ::
        aliveCores (recs.drop (i + 2))) := by
    have hms := hinv.ms
    conv at hms => rw [hdec]
    rwa [aliveCores_decomp _ _ ra rb hszra hszrb] at hms
  have hmsnew : List.Perm ((segRecords p1).map core) (aliveCores recs1) := by
    rw [hrecs1', aliveCores_decomp_merged _ _ _ _
      (by rw [mergedRecord_size]; omega) (tombRecord_size rb)]
    have u2 : List.Perm
        (aliveCores (recs.take i) ++ core rb :: aliveCores (recs.drop (i + 2)))
        (core rb :: (aliveCores (recs.take i) ++ aliveCores (recs.drop (i + 2)))) :=
      List.perm_middle
    have u1 : List.Perm
        (aliveCores (recs.take i) ++ core ra :: core rb :: aliveCores (recs.drop (i + 2)))
        (core ra :: core rb :: (aliveCores (recs.take i) ++ aliveCores (recs.drop (i + 2)))) :=
      List.Perm.trans List.perm_middle (u2.cons _)
    have h4 : List.Perm
        (core (mergedRecord f dim ra sum) :: (segRecords p).map core)
        (core ra :: core rb :: (aliveCores (recs.take i) ++
          core (mergedRecord f dim ra sum) :: aliveCores (recs.drop (i + 2)))) := by
      refine ((hmsold.cons _).trans ?_)
      refine (u1.cons _).trans ?_
      refine (List.Perm.swap _ _ _).trans ?_
      refine ((List.Perm.swap _ _ _).cons _).trans ?_
      exact (((List.perm_middle).symm.cons _).cons _)
    have h5 := (chain.symm.trans h4)
    exact (h5.cons_inv).cons_inv
  have hf1' : f ≤ f1 := by omega
  refine ⟨?_, hf1', ⟨_, h_at_i, mergedRecord_size f dim ra sum⟩,
    ⟨_, h_at_i1, tombRecord_size rb⟩, h_other⟩
  constructor
  case len =>
    rw [hrecs1]
    simp [hinv.len]
  case order =>
    have hold := hinv.order
    conv at hold => rw [hdec]
    rw [hrecs1', List.pairwise_append] at *
    obtain ⟨hT, habR, hcross⟩ := hold
    rw [List.pairwise_cons] at habR
    obtain ⟨hra_all, hbR⟩ := habR
    rw [List.pairwise_cons] at hbR
    obtain ⟨hrb_all, hR⟩ := hbR
    refine ⟨hT, ?_, ?_⟩
    · rw [List.pairwise_cons]
      refine ⟨?_, ?_⟩
      · intro x hx
        rcases List.mem_cons.mp hx with hx | hx
        · subst hx
          refine ⟨?_, ?_⟩
          · rw [mergedRecord_offset, tombRecord_offset]
            omega
          · intro h1 h2
            exact absurd (tombRecord_size rb) h2
        · refine ⟨?_, ?_⟩
          · rw [mergedRecord_offset]
            exact (hra_all x (List.mem_cons_of_mem _ hx)).1
          · intro h1 h2
            have hx2 := (hrb_all x hx).2 (by omega) h2
            rw [mergedRecord_offset, mergedRecord_size]
            rw [hsb] at hx2
            push_cast at hx2 ⊢
            omega
      · rw [List.pairwise_cons]
        refine ⟨?_, hR⟩
        intro x hx
        refine ⟨?_, ?_⟩
        · rw [tombRecord_offset]
          exact (hrb_all x hx).1
        · intro h1 h2
          exact absurd (tombRecord_size rb) (by simpa [tombRecord_size] using h1)
    · intro t ht x hx
      have hcross_ra := hcross t ht ra (List.mem_cons_self _ _)
      have hcross_rb := hcross t ht rb (List.mem_cons_of_mem _ (List.mem_cons_self _ _))
      rcases List.mem_cons.mp hx with hx | hx
      · subst hx
        refine ⟨?_, ?_⟩
        · rw [mergedRecord_offset]
          exact hcross_ra.1
        · intro h1 h2
          rw [mergedRecord_offset]
          exact hcross_ra.2 h1 (by omega)
      rcases List.mem_cons.mp hx with hx | hx
      · subst hx
        refine ⟨?_, ?_⟩
        · rw [tombRecord_offset]
          exact hcross_rb.1
        · intro h1 h2
          exact absurd (tombRecord_size rb) h2
      · exact hcross t ht x (List.mem_cons_of_mem _ (List.mem_cons_of_mem _ hx))
  case tomb =>
    intro k t hk ht
    by_cases hk1 : k = i
    · subst hk1
      rw [h_at_i] at hk
      have := Option.some.inj hk
      rw [← this] at ht
      rw [mergedRecord_size] at ht
      omega
    · by_cases hk2 : k = i + 1
      · subst hk2
        rw [h_at_i1] at hk
        have hb := Option.some.inj hk
        refine ⟨i, mergedRecord f dim ra sum, h_at_i, mergedRecord_size f dim ra sum, ?_⟩
        rw [← hb, tombRecord_offset, mergedRecord_offset]
        omega
      · rw [h_other k hk1 hk2] at hk
        obtain ⟨m, a, hma, hasz, hoff⟩ := hinv.tomb k t hk ht
        by_cases hm1 : m = i
        · subst hm1
          rw [hra] at hma
          have := Option.some.inj hma
          rw [← this] at hasz
          omega
        · by_cases hm2 : m = i + 1
          · subst hm2
            rw [hrb] at hma
            have := Option.some.inj hma
            rw [← this] at hasz
            omega
          · exact ⟨m, a, by rw [h_other m hm1 hm2]; exact hma, hasz, hoff⟩
  case sizes =>
    intro j rj hj
    by_cases hj1 : j = i
    · subst hj1
      rw [h_at_i] at hj
      have := Option.some.inj hj
      rw [← this, mergedRecord_size]
      right
      left
      rfl
    · by_cases hj2 : j = i + 1
      · subst hj2
        rw [h_at_i1] at hj
        have := Option.some.inj hj
        rw [← this, tombRecord_size]
        right
        right
        rfl
      · rw [h_other j hj1 hj2] at hj ⊢
        exact hinv.sizes j rj hj
  case ms => exact hmsnew
  case rcons =>
    intro r hr hrsz
    rw [hrecs1'] at hr
    rcases List.mem_append.mp hr with hr | hr
    · exact hinv.rcons r ((List.take_sublist _ _).subset hr) hrsz
    rcases List.mem_cons.mp hr with hr | hr
    · subst hr
      refine ⟨?_, ?_, ?_⟩
      · rw [mergedRecord_size, mergedRecord_sdata]
        show dim * 2 = getTypeAllocSize (mergedStoreData ra sum).val.ty
        show dim * 2 = getTypeAllocSize sum.ty
        rw [hty, allocSize_bigType]
      · rw [mergedRecord_offset, mergedRecord_sdata]
        show ra.offset = (findBasePointerAndOffset (mergedStoreData ra sum).ptr).2
        show ra.offset =
          (findBasePointerAndOffset ((createBitCast ra.sdata.ptr .pointer).1)).2
        rw [findBase_createBitCast]
        exact hconsra.2.1
      · rw [mergedRecord_sdata]
        show (findBasePointerAndOffset ((createBitCast ra.sdata.ptr .pointer).1)).1 = p0base
        rw [findBase_createBitCast]
        exact hconsra.2.2
    rcases List.mem_cons.mp hr with hr | hr
    · subst hr
      exact absurd (tombRecord_size rb) hrsz
    · exact hinv.rcons r ((List.drop_sublist _ _).subset hr) hrsz
  case sids_nodup => exact hnodup_p1
  case noeff =>
    intro x hx
    rw [hp1] at hx
    have hx1 := mem_of_mem_eraseStore _ _ _ (mem_of_mem_eraseStore _ _ _ hx)
    rcases mem_of_mem_insertBefore _ _ _ _ hx1 with hx2 | hx2
    · rcases List.mem_append.mp hx2 with hx3 | hx3
      · rw [hnews x hx3]
        simp
      · rw [List.mem_singleton.mp hx3]
        simp
    · exact hinv.noeff x hx2
  case fresh_bound =>
    intro s hs
    have hs1 : s ∈ sidsOf (eraseStore ra.sid
        (insertBefore ra.sid (news ++ [.store f (mergedStoreData ra sum)]) p)) :=
      (hsids_p1.mem_iff).mpr (List.mem_cons_of_mem _ hs)
    have hs2 : s ∈ sidsOf (insertBefore ra.sid
        (news ++ [.store f (mergedStoreData ra sum)]) p) :=
      (hsids_e1.mem_iff).mpr (List.mem_cons_of_mem _ hs1)
    have hs3 := (hsids_ins.mem_iff).mp hs2
    rcases List.mem_cons.mp hs3 with hs4 | hs4
    · omega
    · have := hinv.fresh_bound s hs4
      omega

end StoreMerging

namespace StoreMerging

/-- The width-`dim` executor scan preserves the pass invariant and leaves
a record vector in which every adjacent pair is skipped (saturation). -/
theorem processDimLoop_invariant (w : Bool) (dim : Nat) (hdim : 1 ≤ dim)
    (p0base : Value) (recs0 : List StoreAndOffset) (N : Nat)
    (hN : N = recs0.length) :
    ∀ (fuel i : Nat) (recs : List StoreAndOffset) (p : List Instr) (f : Nat)
      (ch : Bool),
      N ≤ fuel + i →
      PassInv w dim p0base recs0 recs p f →
      (∀ j, j < i → ∀ ra rb, recs[j]? = some ra → recs[j + 1]? = some rb →
        pairSkip w dim ra rb) →
      PassInv w dim p0base recs0 (processDimLoop w dim N fuel i recs p f ch).1
        (processDimLoop w dim N fuel i recs p f ch).2.1
        (processDimLoop w dim N fuel i recs p f ch).2.2.1 ∧
      f ≤ (processDimLoop w dim N fuel i recs p f ch).2.2.1 ∧
      (∀ j ra rb, (processDimLoop w dim N fuel i recs p f ch).1[j]? = some ra →
        (processDimLoop w dim N fuel i recs p f ch).1[j + 1]? = some rb →
        pairSkip w dim ra rb) := by
  intro fuel
  induction fuel with
  | zero =>
    intro i recs p f ch hfuel hinv hsat
    have hlen2 : recs.length = N := by rw [hinv.len, ← hN]
    refine ⟨hinv, Nat.le_refl f, ?_⟩
    intro j ra rb hra hrb
    have hj : j + 1 < recs.length := lt_length_of_getElem?_some hrb
    exact hsat j (by omega) ra rb hra hrb
  | succ fuel ih =>
    intro i recs p f ch hfuel hinv hsat
    have hlen2 : recs.length = N := by rw [hinv.len, ← hN]
    rw [processDimLoop]
    split
    · next hlt =>
      cases hm : tryMergePair w dim recs p f i with
      | none =>
        refine ih (i + 1) recs p f ch (by omega) hinv ?_
        intro j hj ra rb hra hrb
        by_cases hji : j = i
        · subst hji
          exact pairSkip_of_tryMergePair_none w dim recs p f j ra rb hra hrb hm
        · exact hsat j (by omega) ra rb hra hrb
      | some out =>
        obtain ⟨recs1, p1, f1⟩ := out
        obtain ⟨hinv1, hf1, ⟨A, hA, hAsz⟩, ⟨B, hB, hBsz⟩, hoth⟩ :=
          passInv_merge_step w dim hdim p0base recs0 recs p f i recs1 p1 f1 hinv hm
        have hsat2 : ∀ j, j < i + 2 → ∀ ra rb, recs1[j]? = some ra →
            recs1[j + 1]? = some rb → pairSkip w dim ra rb := by
          intro j hj ra rb hra hrb
          by_cases hj0 : j + 1 < i
          · rw [hoth j (by omega) (by omega)] at hra
            rw [hoth (j + 1) (by omega) (by omega)] at hrb
            exact hsat j (by omega) ra rb hra hrb
          · by_cases hj1 : j + 1 = i
            · rw [hj1, hA] at hrb
              refine Or.inr (Or.inl ?_)
              rw [← Option.some.inj hrb, hAsz]
              omega
            · by_cases hj2 : j = i
              · subst hj2
                rw [hA] at hra
                refine Or.inl ?_
                rw [← Option.some.inj hra, hAsz]
                omega
              · have hj3 : j = i + 1 := by omega
                subst hj3
                rw [hB] at hra
                refine Or.inl ?_
                rw [← Option.some.inj hra, hBsz]
                omega
        have hres := ih (i + 2) recs1 p1 f1 true (by omega) hinv1 hsat2
        exact ⟨hres.1, Nat.le_trans hf1 hres.2.1, hres.2.2⟩
    · next hge =>
      refine ⟨hinv, Nat.le_refl f, ?_⟩
      intro j ra rb hra hrb
      have hj : j + 1 < recs.length := lt_length_of_getElem?_some hrb
      exact hsat j (by omega) ra rb hra hrb

end StoreMerging

namespace StoreMerging

/-! ### Sorting and ordering facts -/

theorem insertByOffset_perm (r : StoreAndOffset) (l : List StoreAndOffset) :
    List.Perm (insertByOffset r l) (r :: l) := by
  induction l with
  | nil => exact List.Perm.refl _
  | cons s rest ih =>
    rw [insertByOffset]
    split
    · exact (ih.cons s).trans (List.Perm.swap _ _ _)
    · exact List.Perm.refl _

theorem sortStores_perm (l : List StoreAndOffset) :
    List.Perm (sortStores l) l := by
  induction l with
  | nil => exact List.Perm.refl _
  | cons r rest ih =>
    rw [sortStores]
    exact (insertByOffset_perm r (sortStores rest)).trans (ih.cons r)

theorem insertByOffset_sorted (r : StoreAndOffset) (l : List StoreAndOffset)
    (h : l.Pairwise (fun a b => a.offset ≤ b.offset)) :
    (insertByOffset r l).Pairwise (fun a b => a.offset ≤ b.offset) := by
  induction l with
  | nil => simp [insertByOffset]
  | cons s rest ih =>
    rw [insertByOffset]
    rw [List.pairwise_cons] at h
    split
    · next hlt =>
      rw [List.pairwise_cons]
      refine ⟨?_, ih h.2⟩
      intro x hx
      have hx2 : x ∈ r :: rest := ((insertByOffset_perm r rest).mem_iff).mp hx
      rcases List.mem_cons.mp hx2 with hx3 | hx3
      · rw [hx3]
        omega
      · exact h.1 x hx3
    · next hge =>
      rw [List.pairwise_cons]
      refine ⟨?_, List.pairwise_cons.mpr h⟩
      intro x hx
      rcases List.mem_cons.mp hx with hx | hx
      · rw [hx]
        omega
      · have := h.1 x hx
        omega

theorem sortStores_sorted (l : List StoreAndOffset) :
    (sortStores l).Pairwise (fun a b => a.offset ≤ b.offset) := by
  induction l with
  | nil => simp [sortStores]
  | cons r rest ih => exact insertByOffset_sorted r (sortStores rest) ih

/-- Unique sortedness: two strictly-offset-sorted permutations of the same
records are equal. -/
theorem sorted_strict_unique {α : Type} (off : α → Int) :
    ∀ (l₁ l₂ : List α), List.Perm l₁ l₂ →
      l₁.Pairwise (fun a b => off a < off b) →
      l₂.Pairwise (fun a b => off a < off b) → l₁ = l₂ := by
  intro l₁
  induction l₁ with
  | nil => intro l₂ hp _ _; rw [hp.nil_eq]
  | cons a t₁ ih =>
    intro l₂ hp h1 h2
    cases l₂ with
    | nil => exact absurd hp.symm (by simp)
    | cons b t₂ =>
      by_cases hab : a = b
      · subst hab
        rw [ih t₂ hp.cons_inv (List.pairwise_cons.mp h1).2
          (List.pairwise_cons.mp h2).2]
      · exfalso
        have hamem : a ∈ b :: t₂ := hp.mem_iff.mp (List.mem_cons_self _ _)
        have hbmem : b ∈ a :: t₁ := hp.mem_iff.mpr (List.mem_cons_self _ _)
        have ha2 : a ∈ t₂ := (List.mem_cons.mp hamem).resolve_left hab
        have hb1 : b ∈ t₁ := (List.mem_cons.mp hbmem).resolve_left
          (fun h => hab h.symm)
        have hlt1 : off a < off b := (List.pairwise_cons.mp h1).1 b hb1
        have hlt2 : off b < off a := (List.pairwise_cons.mp h2).1 a ha2
        omega

/-- A strict chain of non-overlapping live records. -/
theorem pairwise_recOrder_of_no_overlap :
    ∀ (l : List StoreAndOffset), hasOverlap l = false →
      l.Pairwise (fun a b => a.offset ≤ b.offset) →
      (∀ r ∈ l, 1 ≤ r.size) → l.Pairwise recOrder := by
  intro l
  induction l with
  | nil => intro _ _ _; exact List.Pairwise.nil
  | cons a rest ih =>
    intro hov hsort hsz
    cases rest with
    | nil => simp [recOrder]
    | cons b rest2 =>
      rw [hasOverlap] at hov
      simp only [Bool.or_eq_false_iff, decide_eq_false_iff_not, not_lt] at hov
      have hrest := ih hov.2 (List.pairwise_cons.mp hsort).2
        (fun r hr => hsz r (List.mem_cons_of_mem _ hr))
      rw [List.pairwise_cons]
      refine ⟨?_, hrest⟩
      have hsa : 1 ≤ a.size := hsz a (List.mem_cons_self _ _)
      have hab : a.offset + (a.size : Int) ≤ b.offset := hov.1
      intro x hx
      rcases List.mem_cons.mp hx with hx | hx
      · subst hx
        exact ⟨by omega, fun _ _ => hab⟩
      · have hbx := (List.pairwise_cons.mp hrest).1 x hx
        have hsb : 1 ≤ b.size := hsz b (List.mem_cons_of_mem _ (List.mem_cons_self _ _))
        have hbo : b.offset < x.offset := hbx.1
        refine ⟨by omega, fun _ _ => by omega⟩

theorem hasOverlap_false_of_pairwise :
    ∀ (l : List StoreAndOffset), l.Pairwise recOrder →
      (∀ r ∈ l, r.size ≠ 0) → hasOverlap l = false := by
  intro l
  induction l with
  | nil => intro _ _; rfl
  | cons a rest ih =>
    intro hp hsz
    cases rest with
    | nil => rfl
    | cons b rest2 =>
      rw [hasOverlap]
      have hab : recOrder a b := (List.pairwise_cons.mp hp).1 b (List.mem_cons_self _ _)
      have h1 : a.offset + (a.size : Int) ≤ b.offset :=
        hab.2 (hsz a (List.mem_cons_self _ _))
          (hsz b (List.mem_cons_of_mem _ (List.mem_cons_self _ _)))
      rw [ih (List.pairwise_cons.mp hp).2
        (fun r hr => hsz r (List.mem_cons_of_mem _ hr))]
      simp
      omega

theorem aliveCores_filter (recs : List StoreAndOffset) :
    aliveCores (filterAlreadyProcessedStores recs) = aliveCores recs := by
  unfold aliveCores filterAlreadyProcessedStores
  rw [List.filter_filter]
  simp

theorem filterAlreadyProcessedStores_eq_self (recs : List StoreAndOffset)
    (h : ∀ r ∈ recs, r.size ≠ 0) : filterAlreadyProcessedStores recs = recs := by
  unfold filterAlreadyProcessedStores
  exact List.filter_eq_self.mpr (fun r hr => by simpa using h r hr)

theorem mem_filterAlive (recs : List StoreAndOffset) (r : StoreAndOffset)
    (h : r ∈ filterAlreadyProcessedStores recs) : r ∈ recs ∧ r.size ≠ 0 := by
  unfold filterAlreadyProcessedStores at h
  have := List.mem_filter.mp h
  exact ⟨this.1, by simpa using this.2⟩

end StoreMerging

namespace StoreMerging

/-! ### Saturation: established by a pass, preserved by later passes -/

theorem satRel_pairwise_of_adjacent (w : Bool) (dim : Nat) (hdim : 1 ≤ dim)
    (recs : List StoreAndOffset)
    (horder : recs.Pairwise recOrder)
    (htomb : ∀ (k : Nat) (t : StoreAndOffset), recs[k]? = some t → t.size = 0 →
      ∃ (m : Nat) (a : StoreAndOffset), recs[m]? = some a ∧ a.size = dim * 2 ∧
        t.offset = a.offset + (dim : Int))
    (hsat : ∀ (j : Nat) (ra rb : StoreAndOffset), recs[j]? = some ra →
      recs[j + 1]? = some rb → pairSkip w dim ra rb) :
    recs.Pairwise (satRel w dim) := by
  rw [List.pairwise_iff_getElem] at horder ⊢
  intro a b ha hb hlt hsza hszb hoff
  by_cases hadj : b = a + 1
  · subst hadj
    have hps := hsat a recs[a] recs[a + 1] (List.getElem?_eq_getElem ha)
      (List.getElem?_eq_getElem hb)
    rcases hps with h | h | h | h
    · exact absurd hsza h
    · exact absurd hszb h
    · exact absurd hoff.symm h
    · exact h
  · exfalso
    have ha1 : a + 1 < recs.length := by omega
    by_cases htz : recs[a + 1].size = 0
    · obtain ⟨m, aa, hm, hasz, hoff2⟩ :=
        htomb (a + 1) recs[a + 1] (List.getElem?_eq_getElem ha1) htz
      have hmlt : m < recs.length := lt_length_of_getElem?_some hm
      have haa : recs[m] = aa := by
        rw [List.getElem?_eq_getElem hmlt] at hm
        exact Option.some.inj hm
      have horda : recs[a].offset < recs[a + 1].offset := (horder a (a + 1) ha ha1 (by omega)).1
      have hordb : recs[a + 1].offset < recs[b].offset := (horder (a + 1) b ha1 hb (by omega)).1
      by_cases hma : m = a
      · subst hma
        rw [haa] at hsza
        omega
      · by_cases hmb : m = b
        · subst hmb
          rw [haa] at hszb
          omega
        · rcases Nat.lt_or_ge m a with hlt2 | hge2
          · have hord := (horder m a hmlt ha hlt2).2
              (by rw [haa]; omega) (by omega)
            rw [haa, hasz] at hord
            push_cast at hord hoff2 horda
            omega
          · have hlt3 : a < m := by omega
            have hord := (horder a m ha hmlt hlt3).2 (by omega)
              (by rw [haa]; omega)
            rw [haa] at hord
            rw [hsza] at hord
            push_cast at hord hoff2 hordb hoff
            omega
    · have hord1 := (horder a (a + 1) ha ha1 (by omega)).2 (by omega) htz
      have hord2 := (horder (a + 1) b ha1 hb (by omega)).1
      rw [hsza] at hord1
      push_cast at hord1 hoff
      omega

theorem satRel_pairwise_transfer (w : Bool) (dim dim2 : Nat)
    (hne : dim2 ≠ dim) (hdim : dim ≠ 0)
    (l l2 : List StoreAndOffset) (hlen : l2.length = l.length)
    (hsizes : ∀ (j : Nat) (rj : StoreAndOffset), l2[j]? = some rj →
      l2[j]? = l[j]? ∨ rj.size = dim2 ∨ rj.size = 0)
    (hp : l.Pairwise (satRel w dim)) : l2.Pairwise (satRel w dim) := by
  rw [List.pairwise_iff_getElem] at hp ⊢
  intro a b ha hb hlt hsa hsb hoff
  have h1 := hsizes a l2[a] (List.getElem?_eq_getElem ha)
  have h2 := hsizes b l2[b] (List.getElem?_eq_getElem hb)
  rcases h1 with h1 | h1 | h1
  · rcases h2 with h2 | h2 | h2
    · have ha2 : a < l.length := by omega
      have hb2 : b < l.length := by omega
      rw [List.getElem?_eq_getElem ha, List.getElem?_eq_getElem ha2] at h1
      rw [List.getElem?_eq_getElem hb, List.getElem?_eq_getElem hb2] at h2
      have e1 := Option.some.inj h1
      have e2 := Option.some.inj h2
      have hres := hp a b ha2 hb2 hlt
      rw [← e1, ← e2] at hres
      exact hres hsa hsb hoff
    · omega
    · omega
  · omega
  · omega

theorem tryMergePair_none_of_satRel (w : Bool) (dim : Nat)
    (F : List StoreAndOffset) (hp : F.Pairwise (satRel w dim)) :
    ∀ (j : Nat) (p : List Instr) (f : Nat), tryMergePair w dim F p f j = none := by
  intro j p f
  cases hra : F[j]? with
  | none => exact tryMergePair_none_left _ _ _ _ _ _ hra
  | some ra =>
    cases hrb : F[j + 1]? with
    | none => exact tryMergePair_none_right _ _ _ _ _ _ hrb
    | some rb =>
      refine tryMergePair_none_of_skip _ _ _ _ _ _ _ _ hra hrb ?_
      by_cases h1 : ra.size = dim
      · by_cases h2 : rb.size = dim
        · by_cases h3 : rb.offset = (dim : Int) + ra.offset
          · refine Or.inr (Or.inr (Or.inr ?_))
            have hj : j < F.length := lt_length_of_getElem?_some hra
            have hj1 : j + 1 < F.length := lt_length_of_getElem?_some hrb
            have hres := (List.pairwise_iff_getElem.mp hp) j (j + 1) hj hj1 (by omega)
            rw [List.getElem?_eq_getElem hj] at hra
            rw [List.getElem?_eq_getElem hj1] at hrb
            rw [Option.some.inj hra, Option.some.inj hrb] at hres
            exact hres h1 h2 h3
          · exact Or.inr (Or.inr (Or.inl (fun he => h3 he.symm)))
        · exact Or.inr (Or.inl h2)
      · exact Or.inl h1

theorem tryMergePair_none_of_cores_eq (w : Bool) (dim : Nat)
    (F F2 : List StoreAndOffset) (hc : F2.map core = F.map core)
    (hnone : ∀ (j : Nat) (p : List Instr) (f : Nat),
      tryMergePair w dim F p f j = none) :
    ∀ (j : Nat) (p : List Instr) (f : Nat), tryMergePair w dim F2 p f j = none := by
  intro j p f
  refine (tryMergePair_none_congr w dim F2 F p p f f j j ?_ ?_).mpr (hnone j p f)
  · have hh := congrArg (fun l => l[j]?) hc
    simpa [List.getElem?_map] using hh
  · have hh := congrArg (fun l => l[j + 1]?) hc
    simpa [List.getElem?_map] using hh

end StoreMerging

namespace StoreMerging

/-! ### Utilities for the segment theorem -/

theorem processDimLoop_fresh_mono (w : Bool) (dim N : Nat) :
    ∀ (fuel i : Nat) (recs : List StoreAndOffset) (p : List Instr) (f : Nat)
      (ch : Bool), f ≤ (processDimLoop w dim N fuel i recs p f ch).2.2.1 := by
  intro fuel
  induction fuel with
  | zero => intro i recs p f ch; exact Nat.le_refl f
  | succ fuel ih =>
    intro i recs p f ch
    rw [processDimLoop]
    split
    · cases hm : tryMergePair w dim recs p f i with
      | none => exact ih (i + 1) recs p f ch
      | some out =>
        obtain ⟨recs1, p1, f1⟩ := out
        obtain ⟨ra, rb, sum, news, -, -, -, -, -, -, -, -, -, -, hf1⟩ :=
          tryMergePair_some_spec w dim recs p f i recs1 p1 f1 hm
        have hrec := ih (i + 2) recs1 p1 f1 true
        exact Nat.le_trans (by omega) hrec
    · exact Nat.le_refl f

theorem core_eq_iff (a b : StoreAndOffset) :
    core a = core b ↔
      a.sid = b.sid ∧ a.sdata = b.sdata ∧ a.size = b.size ∧ a.offset = b.offset := by
  unfold core
  simp [Prod.ext_iff]

theorem hasOverlap_congr_cores :
    ∀ (S T : List StoreAndOffset), S.map core = T.map core →
      hasOverlap S = hasOverlap T := by
  intro S
  induction S with
  | nil =>
    intro T h
    cases T with
    | nil => rfl
    | cons b T2 => exact absurd h (by simp)
  | cons a S2 ihS =>
    intro T h
    cases T with
    | nil => exact absurd h (by simp)
    | cons b T2 =>
      simp only [List.map_cons, List.cons.injEq] at h
      obtain ⟨hab, ht⟩ := h
      cases S2 with
      | nil =>
        cases T2 with
        | nil => rfl
        | cons c T3 => exact absurd ht (by simp)
      | cons a2 S3 =>
        cases T2 with
        | nil => exact absurd ht (by simp)
        | cons b2 T3 =>
          rw [hasOverlap, hasOverlap]
          have ht2 := ht
          simp only [List.map_cons, List.cons.injEq] at ht2
          have h1 := (core_eq_iff a b).mp hab
          have h2 := (core_eq_iff a2 b2).mp ht2.1
          rw [ihS (b2 :: T3) ht, h1.2.2.1, h1.2.2.2, h2.2.2.2]

theorem pairwise_of_map_core_eq (R : StoreAndOffset → StoreAndOffset → Prop)
    (hR : ∀ a b a2 b2, core a = core a2 → core b = core b2 → R a2 b2 → R a b) :
    ∀ (S T : List StoreAndOffset), S.map core = T.map core →
      T.Pairwise R → S.Pairwise R := by
  intro S
  induction S with
  | nil => intro T h hp; exact List.Pairwise.nil
  | cons a S2 ih =>
    intro T h hp
    cases T with
    | nil => exact absurd h (by simp)
    | cons b T2 =>
      simp only [List.map_cons, List.cons.injEq] at h
      obtain ⟨hab, ht⟩ := h
      rw [List.pairwise_cons] at hp ⊢
      refine ⟨?_, ih T2 ht hp.2⟩
      intro x hx
      have hxc : core x ∈ T2.map core := by
        rw [← ht]
        exact List.mem_map.mpr ⟨x, hx, rfl⟩
      obtain ⟨y, hy, hyc⟩ := List.mem_map.mp hxc
      exact hR a x b y hab hyc.symm (hp.1 y hy)

theorem satRel_congr (w : Bool) (dim : Nat) (a b a2 b2 : StoreAndOffset)
    (ha : core a = core a2) (hb : core b = core b2) (h : satRel w dim a2 b2) :
    satRel w dim a b := by
  obtain ⟨-, hds, hsz, hoff⟩ := (core_eq_iff a a2).mp ha
  obtain ⟨-, hds2, hsz2, hoff2⟩ := (core_eq_iff b b2).mp hb
  unfold satRel mergeBlocked at h ⊢
  rw [hds, hsz, hoff, hds2, hsz2, hoff2]
  exact h

theorem segRecordsAux_eq_nil (k : Nat) (l : List Instr) (h : storesOf l = []) :
    segRecordsAux k l = [] := by
  induction l generalizing k with
  | nil => rfl
  | cons i rest ih =>
    cases i with
    | store s d => exact absurd h (by simp [storesOf_cons_store])
    | other e =>
      rw [segRecordsAux_cons_other]
      exact ih k (by rwa [storesOf_cons_other] at h)

theorem exists_first_store (l : List Instr) (h : storesOf l ≠ []) :
    ∃ (NS : List Instr) (s : Nat) (sd : StoreData) (rest : List Instr),
      l = NS ++ Instr.store s sd :: rest ∧ storesOf NS = [] := by
  induction l with
  | nil => exact absurd rfl h
  | cons i rest ih =>
    cases i with
    | store s d => exact ⟨[], s, d, rest, rfl, rfl⟩
    | other e =>
      obtain ⟨NS, s, sd, r2, he, hns⟩ := ih (by rwa [storesOf_cons_other] at h)
      refine ⟨Instr.other e :: NS, s, sd, r2, ?_, ?_⟩
      · rw [List.cons_append, ← he]
      · rw [storesOf_cons_other]
        exact hns

theorem all_other_of_storesOf_nil (l : List Instr) (h : storesOf l = [])
    (hne : noEffect l) : ∀ x ∈ l, x = Instr.other false := by
  intro x hx
  cases x with
  | store s d =>
    have : (s, d) ∈ storesOf l := (mem_storesOf_iff l s d).mpr hx
    rw [h] at this
    exact absurd this (List.not_mem_nil _)
  | other e =>
    cases e with
    | false => rfl
    | true => exact absurd rfl (hne _ hx)

theorem filter_ne_nil_of_tomb (dim : Nat) (hdim : 1 ≤ dim)
    (recs : List StoreAndOffset) (hlen : recs ≠ [])
    (htomb : ∀ (k : Nat) (t : StoreAndOffset), recs[k]? = some t → t.size = 0 →
      ∃ (m : Nat) (a : StoreAndOffset), recs[m]? = some a ∧ a.size = dim * 2 ∧
        t.offset = a.offset + (dim : Int)) :
    filterAlreadyProcessedStores recs ≠ [] := by
  intro hf
  have hall : ∀ r ∈ recs, r.size = 0 := by
    intro r hr
    by_contra hnz
    have hmem : r ∈ filterAlreadyProcessedStores recs :=
      List.mem_filter.mpr ⟨hr, by simpa using hnz⟩
    rw [hf] at hmem
    exact absurd hmem (List.not_mem_nil r)
  cases recs with
  | nil => exact hlen rfl
  | cons r0 rest =>
    obtain ⟨m, a, hm, hasz, -⟩ :=
      htomb 0 r0 (by simp) (hall r0 (List.mem_cons_self _ _))
    have hma : a ∈ r0 :: rest := mem_of_getElem?_some hm
    have h0 := hall a hma
    omega

end StoreMerging

namespace StoreMerging

/-! ### Entering and chaining the width passes -/

theorem processBlockOfStores_fresh_mono (w : Bool) (recs : List StoreAndOffset)
    (p : List Instr) (f : Nat) :
    f ≤ (processBlockOfStores w recs p f).2.2.1 := by
  unfold processBlockOfStores
  by_cases hl : recs.length < 2
  · rw [if_pos hl]
  · rw [if_neg hl]
    dsimp only
    by_cases ho : hasOverlap (sortStores recs) = true
    · rw [if_pos ho]
    · rw [if_neg ho]
      have h1 : f ≤ (processDim w 1 (sortStores recs) p f).2.2.1 :=
        processDimLoop_fresh_mono w 1 _ _ 0 _ p f false
      by_cases hw : ¬ w = true
      · rw [if_pos hw]
        dsimp only
        have h2 := processDimLoop_fresh_mono w 2
          (filterAlreadyProcessedStores (processDim w 1 (sortStores recs) p f).1).length
          (filterAlreadyProcessedStores (processDim w 1 (sortStores recs) p f).1).length 0
          (filterAlreadyProcessedStores (processDim w 1 (sortStores recs) p f).1)
          (processDim w 1 (sortStores recs) p f).2.1
          (processDim w 1 (sortStores recs) p f).2.2.1 false
        exact Nat.le_trans h1 h2
      · rw [if_neg hw]
        dsimp only
        have h2 := processDimLoop_fresh_mono w 2
          (filterAlreadyProcessedStores (processDim w 1 (sortStores recs) p f).1).length
          (filterAlreadyProcessedStores (processDim w 1 (sortStores recs) p f).1).length 0
          (filterAlreadyProcessedStores (processDim w 1 (sortStores recs) p f).1)
          (processDim w 1 (sortStores recs) p f).2.1
          (processDim w 1 (sortStores recs) p f).2.2.1 false
        have h3 := processDimLoop_fresh_mono w 4
          (filterAlreadyProcessedStores (processDim w 2
            (filterAlreadyProcessedStores (processDim w 1 (sortStores recs) p f).1)
            (processDim w 1 (sortStores recs) p f).2.1
            (processDim w 1 (sortStores recs) p f).2.2.1).1).length
          (filterAlreadyProcessedStores (processDim w 2
            (filterAlreadyProcessedStores (processDim w 1 (sortStores recs) p f).1)
            (processDim w 1 (sortStores recs) p f).2.1
            (processDim w 1 (sortStores recs) p f).2.2.1).1).length 0
          (filterAlreadyProcessedStores (processDim w 2
            (filterAlreadyProcessedStores (processDim w 1 (sortStores recs) p f).1)
            (processDim w 1 (sortStores recs) p f).2.1
            (processDim w 1 (sortStores recs) p f).2.2.1).1)
          (processDim w 2
            (filterAlreadyProcessedStores (processDim w 1 (sortStores recs) p f).1)
            (processDim w 1 (sortStores recs) p f).2.1
            (processDim w 1 (sortStores recs) p f).2.2.1).2.1
          (processDim w 2
            (filterAlreadyProcessedStores (processDim w 1 (sortStores recs) p f).1)
            (processDim w 1 (sortStores recs) p f).2.1
            (processDim w 1 (sortStores recs) p f).2.2.1).2.2.1 false
        exact Nat.le_trans h1 (Nat.le_trans h2 h3)

theorem passInv_initial (w : Bool) (dim : Nat) (b : Value) (P : List Instr)
    (f : Nat)
    (hne : noEffect P) (hbu : baseUniform b P) (hnd : (sidsOf P).Nodup)
    (hsz : ∀ sid sd, Instr.store sid sd ∈ P → 1 ≤ getTypeAllocSize sd.val.ty)
    (hfb : ∀ s ∈ sidsOf P, s < f)
    (hov : hasOverlap (sortStores (segRecords P)) = false) :
    PassInv w dim b (sortStores (segRecords P)) (sortStores (segRecords P)) P f := by
  have hsz2 : ∀ r ∈ sortStores (segRecords P), 1 ≤ r.size := by
    intro r hr
    have hr2 : r ∈ segRecords P := (sortStores_perm _).mem_iff.mp hr
    obtain ⟨h1, -, h3⟩ := mem_segRecordsAux 0 P r hr2
    rw [h1]
    exact hsz _ _ h3
  refine ⟨rfl, ?_, ?_, ?_, ?_, ?_, hnd, hne, hfb⟩
  · exact pairwise_recOrder_of_no_overlap _ hov (sortStores_sorted _) hsz2
  · intro k t ht h0
    have := hsz2 t (mem_of_getElem?_some ht)
    omega
  · intro j rj h
    exact Or.inl rfl
  · have heq : aliveCores (sortStores (segRecords P)) =
        (sortStores (segRecords P)).map core := by
      unfold aliveCores
      rw [filterAlreadyProcessedStores_eq_self _ (fun r hr => by
        have := hsz2 r hr; omega)]
    rw [heq]
    exact ((sortStores_perm (segRecords P)).map core).symm
  · intro r hr hz
    have hr2 : r ∈ segRecords P := (sortStores_perm _).mem_iff.mp hr
    obtain ⟨h1, h2, h3⟩ := mem_segRecordsAux 0 P r hr2
    exact ⟨h1, h2, hbu _ _ h3⟩

theorem passInv_refilter (w : Bool) (dim dim2 : Nat) (b : Value)
    (recs0 recs : List StoreAndOffset) (p : List Instr) (f : Nat)
    (hinv : PassInv w dim b recs0 recs p f) :
    PassInv w dim2 b (filterAlreadyProcessedStores recs)
      (filterAlreadyProcessedStores recs) p f := by
  refine ⟨rfl, ?_, ?_, ?_, ?_, ?_, hinv.sids_nodup, hinv.noeff, hinv.fresh_bound⟩
  · exact List.Pairwise.sublist (List.filter_sublist _) hinv.order
  · intro k t ht h0
    exact absurd h0 (mem_filterAlive _ _ (mem_of_getElem?_some ht)).2
  · intro j rj h
    exact Or.inl rfl
  · rw [aliveCores_filter]
    exact hinv.ms
  · intro r hr hz
    exact hinv.rcons r (mem_filterAlive _ _ hr).1 hz

theorem onePass_spec (w : Bool) (dim : Nat) (hdim : 1 ≤ dim) (b : Value)
    (R0 : List StoreAndOffset) (p : List Instr) (f : Nat)
    (hinv0 : PassInv w dim b R0 R0 p f)
    (out : List StoreAndOffset) (p2 : List Instr) (f2 : Nat) (ch : Bool)
    (heq : processDim w dim R0 p f = (out, p2, f2, ch)) :
    PassInv w dim b R0 out p2 f2 ∧ f ≤ f2 ∧ out.Pairwise (satRel w dim) := by
  have h := processDimLoop_invariant w dim hdim b R0 R0.length rfl R0.length 0
    R0 p f false (by omega) hinv0 (fun j hj => absurd hj (Nat.not_lt_zero j))
  rw [show processDimLoop w dim R0.length R0.length 0 R0 p f false =
    (out, p2, f2, ch) from heq] at h
  obtain ⟨hinv, hf, hadj⟩ := h
  exact ⟨hinv, hf, satRel_pairwise_of_adjacent w dim hdim out hinv.order
    hinv.tomb hadj⟩

theorem baseUniform_of_ms (b : Value) (p : List Instr)
    (recs : List StoreAndOffset)
    (hms : List.Perm ((segRecords p).map core) (aliveCores recs))
    (hrc : ∀ r ∈ recs, r.size ≠ 0 →
      (findBasePointerAndOffset r.sdata.ptr).1 = b) :
    baseUniform b p := by
  intro sid sd hmem
  have h1 : coreOfStore (sid, sd) ∈ (segRecords p).map core := by
    rw [segRecords, segRecordsAux_map_core]
    exact List.mem_map.mpr ⟨(sid, sd), (mem_storesOf_iff _ _ _).mpr hmem, rfl⟩
  have h2 : coreOfStore (sid, sd) ∈ aliveCores recs := hms.mem_iff.mp h1
  obtain ⟨r, hr, hrc2⟩ := List.mem_map.mp h2
  obtain ⟨hrm, hrz⟩ := mem_filterAlive recs r hr
  have hsd : r.sdata = sd := by
    have := congrArg (fun c => c.2.1) hrc2
    simpa [core, coreOfStore] using this
  have hb := hrc r hrm hrz
  rw [hsd] at hb
  exact hb

theorem satRecords_of_cores (w : Bool) (R recs : List StoreAndOffset)
    (hperm : List.Perm (recs.map core) (R.map core))
    (hord : R.Pairwise recOrder)
    (hnz : ∀ r ∈ R, r.size ≠ 0)
    (h1 : R.Pairwise (satRel w 1)) (h2 : R.Pairwise (satRel w 2))
    (h4 : w = true → R.Pairwise (satRel w 4)) :
    SatRecords w recs := by
  intro p f
  unfold processBlockOfStores
  by_cases hl : recs.length < 2
  · rw [if_pos hl]
    exact ⟨rfl, rfl⟩
  · rw [if_neg hl]
    dsimp only
    have hSperm : List.Perm (sortStores recs) recs := sortStores_perm recs
    have hSc : List.Perm ((sortStores recs).map core) (R.map core) :=
      (hSperm.map core).trans hperm
    have hRoff : R.Pairwise (fun a b : StoreAndOffset => a.offset < b.offset) :=
      hord.imp (fun h => h.1)
    have hRoffs : (R.map (fun r : StoreAndOffset => r.offset)).Nodup := by
      have hp : (R.map (fun r : StoreAndOffset => r.offset)).Pairwise (· < ·) :=
        List.pairwise_map.mpr hRoff
      exact hp.imp (fun h => Int.ne_of_lt h)
    have hSoffs : ((sortStores recs).map (fun r : StoreAndOffset =>
        r.offset)).Nodup := by
      refine (List.Perm.nodup_iff ?_).mpr hRoffs
      have hh := hSc.map (fun c : Nat × StoreData × Nat × Int => c.2.2.2)
      simpa [List.map_map, Function.comp, core] using hh
    have hSlt : (sortStores recs).Pairwise
        (fun a b : StoreAndOffset => a.offset < b.offset) := by
      have hle := sortStores_sorted recs
      have hne2 : (sortStores recs).Pairwise
          (fun a b : StoreAndOffset => a.offset ≠ b.offset) :=
        List.pairwise_map.mp hSoffs
      exact (hle.and hne2).imp (fun h => lt_of_le_of_ne h.1 h.2)
    have hmapeq : (sortStores recs).map core = R.map core := by
      refine sorted_strict_unique (fun c : Nat × StoreData × Nat × Int => c.2.2.2)
        _ _ hSc ?_ ?_
      · exact List.pairwise_map.mpr hSlt
      · exact List.pairwise_map.mpr hRoff
    have hovf : hasOverlap (sortStores recs) = false := by
      rw [hasOverlap_congr_cores _ R hmapeq]
      exact hasOverlap_false_of_pairwise R hord hnz
    rw [if_neg (by simp [hovf])]
    have hnzS : ∀ r ∈ sortStores recs, r.size ≠ 0 := by
      intro r hr
      have hc : core r ∈ R.map core := by
        rw [← hmapeq]
        exact List.mem_map.mpr ⟨r, hr, rfl⟩
      obtain ⟨y, hy, hyc⟩ := List.mem_map.mp hc
      have hsz := ((core_eq_iff y r).mp hyc).2.2.1
      rw [← hsz]
      exact hnz y hy
    have hsatS : ∀ d, R.Pairwise (satRel w d) →
        (sortStores recs).Pairwise (satRel w d) := by
      intro d hd
      exact pairwise_of_map_core_eq (satRel w d)
        (fun a bb a2 b2 ha hb h => satRel_congr w d a bb a2 b2 ha hb h)
        _ _ hmapeq hd
    have hp1 : processDim w 1 (sortStores recs) p f =
        (sortStores recs, p, f, false) :=
      processDimLoop_no_merge w 1 _ _ p f
        (fun j => tryMergePair_none_of_satRel w 1 _ (hsatS 1 h1) j p f) _ 0 false
    have hfe : filterAlreadyProcessedStores (sortStores recs) = sortStores recs :=
      filterAlreadyProcessedStores_eq_self _ hnzS
    have hp2 : processDim w 2 (sortStores recs) p f =
        (sortStores recs, p, f, false) :=
      processDimLoop_no_merge w 2 _ _ p f
        (fun j => tryMergePair_none_of_satRel w 2 _ (hsatS 2 h2) j p f) _ 0 false
    by_cases hw : w = true
    · rw [if_neg (by simp [hw])]
      have hp4 : processDim w 4 (sortStores recs) p f =
          (sortStores recs, p, f, false) :=
        processDimLoop_no_merge w 4 _ _ p f
          (fun j => tryMergePair_none_of_satRel w 4 _ (hsatS 4 (h4 hw)) j p f)
          _ 0 false
      simp only [hp1, hfe, hp2, hp4]
      exact ⟨trivial, rfl⟩
    · rw [if_pos hw]
      simp only [hp1, hfe, hp2]
      exact ⟨trivial, rfl⟩

end StoreMerging

namespace StoreMerging

/-- The segment theorem: submitting a scanned run to the planner yields a
segment that is still effect-free and base-uniform, whose own records the
planner can no longer change, that still contains a store when the input
did, and a fresh counter that only grew. -/
theorem processBlockOfStores_spec (w : Bool) (b : Value) (P : List Instr)
    (f : Nat)
    (hne : noEffect P) (hbu : baseUniform b P) (hnd : (sidsOf P).Nodup)
    (hsz : ∀ sid sd, Instr.store sid sd ∈ P → 1 ≤ getTypeAllocSize sd.val.ty)
    (hfb : ∀ s ∈ sidsOf P, s < f) :
    noEffect (processBlockOfStores w (segRecords P) P f).2.1 ∧
    baseUniform b (processBlockOfStores w (segRecords P) P f).2.1 ∧
    SatRecords w (segRecords (processBlockOfStores w (segRecords P) P f).2.1) ∧
    (storesOf P ≠ [] → storesOf (processBlockOfStores w (segRecords P) P f).2.1 ≠ []) ∧
    f ≤ (processBlockOfStores w (segRecords P) P f).2.2.1 := by
  by_cases hl : (segRecords P).length < 2
  · have heq : processBlockOfStores w (segRecords P) P f =
        (segRecords P, P, f, false) := by
      unfold processBlockOfStores
      rw [if_pos hl]
    rw [heq]
    refine ⟨hne, hbu, ?_, fun h => h, Nat.le_refl f⟩
    intro p2 f2
    unfold processBlockOfStores
    rw [if_pos hl]
    exact ⟨rfl, rfl⟩
  · by_cases hov : hasOverlap (sortStores (segRecords P)) = true
    · have heq : processBlockOfStores w (segRecords P) P f =
          (sortStores (segRecords P), P, f, false) := by
        unfold processBlockOfStores
        rw [if_neg hl]
        dsimp only
        rw [if_pos hov]
      rw [heq]
      refine ⟨hne, hbu, ?_, fun h => h, Nat.le_refl f⟩
      intro p2 f2
      unfold processBlockOfStores
      rw [if_neg hl]
      dsimp only
      rw [if_pos hov]
      exact ⟨rfl, rfl⟩
    · have hovf : hasOverlap (sortStores (segRecords P)) = false := by
        simpa using hov
      have hSlen : (sortStores (segRecords P)).length = (segRecords P).length :=
        (sortStores_perm _).length_eq
      have hinv0 := passInv_initial w 1 b P f hne hbu hnd hsz hfb hovf
      rcases hpd1 : processDim w 1 (sortStores (segRecords P)) P f with
        ⟨out1, p1, f1, ch1⟩
      obtain ⟨hinv1, hf1, hsat1⟩ :=
        onePass_spec w 1 (by omega) b _ P f hinv0 out1 p1 f1 ch1 hpd1
      have hout1len : out1.length = (segRecords P).length := by
        rw [hinv1.len, hSlen]
      have hout1ne : out1 ≠ [] := by
        intro h0
        rw [h0] at hout1len
        simp at hout1len
        omega
      have hr1ne : filterAlreadyProcessedStores out1 ≠ [] :=
        filter_ne_nil_of_tomb 1 (by omega) out1 hout1ne hinv1.tomb
      have hsat1r : (filterAlreadyProcessedStores out1).Pairwise (satRel w 1) :=
        List.Pairwise.sublist (List.filter_sublist _) hsat1
      have hinv20 := passInv_refilter w 1 2 b _ out1 p1 f1 hinv1
      rcases hpd2 : processDim w 2 (filterAlreadyProcessedStores out1) p1 f1 with
        ⟨out2, p2, f2, ch2⟩
      obtain ⟨hinv2, hf2, hsat2⟩ :=
        onePass_spec w 2 (by omega) b _ p1 f1 hinv20 out2 p2 f2 ch2 hpd2
      have hout2ne : out2 ≠ [] := by
        intro h0
        have hll := hinv2.len
        rw [h0] at hll
        simp at hll
        exact hr1ne (List.eq_nil_of_length_eq_zero hll.symm)
      have hkeep1 : out2.Pairwise (satRel w 1) :=
        satRel_pairwise_transfer w 1 (2 * 2) (by omega) (by omega) _ out2
          hinv2.len hinv2.sizes hsat1r
      have hsat1r2 : (filterAlreadyProcessedStores out2).Pairwise (satRel w 1) :=
        List.Pairwise.sublist (List.filter_sublist _) hkeep1
      have hsat2r2 : (filterAlreadyProcessedStores out2).Pairwise (satRel w 2) :=
        List.Pairwise.sublist (List.filter_sublist _) hsat2
      have hordr2 : (filterAlreadyProcessedStores out2).Pairwise recOrder :=
        List.Pairwise.sublist (List.filter_sublist _) hinv2.order
      have hnzr2 : ∀ r ∈ filterAlreadyProcessedStores out2, r.size ≠ 0 :=
        fun r hr => (mem_filterAlive _ _ hr).2
      have hr2ne : filterAlreadyProcessedStores out2 ≠ [] :=
        filter_ne_nil_of_tomb 2 (by omega) out2 hout2ne hinv2.tomb
      by_cases hw : ¬ w = true
      · have heq : processBlockOfStores w (segRecords P) P f =
            (filterAlreadyProcessedStores out2, p2, f2, ch1 || ch2) := by
          unfold processBlockOfStores
          rw [if_neg hl]
          dsimp only
          rw [if_neg (by simp [hovf]), if_pos hw]
          simp only [hpd1, hpd2]
        rw [heq]
        refine ⟨hinv2.noeff, ?_, ?_, ?_, Nat.le_trans hf1 hf2⟩
        · exact baseUniform_of_ms b p2 out2 hinv2.ms
            (fun r hr hz => (hinv2.rcons r hr hz).2.2)
        · exact satRecords_of_cores w (filterAlreadyProcessedStores out2)
            (segRecords p2) hinv2.ms hordr2 hnzr2 hsat1r2 hsat2r2
            (fun hww => absurd hww hw)
        · intro hPne h0
          have hl1 : ((segRecords p2).map core).length = 0 := by
            rw [List.length_map, segRecords, segRecordsAux_length, h0]
            rfl
          have hl2 : (aliveCores out2).length = 0 := by
            rw [← hinv2.ms.length_eq, hl1]
          have hl3 : (filterAlreadyProcessedStores out2).length = 0 := by
            have hl4 : (aliveCores out2).length =
                (filterAlreadyProcessedStores out2).length := by
              unfold aliveCores
              rw [List.length_map]
            omega
          exact hr2ne (List.eq_nil_of_length_eq_zero hl3)
      · -- wasm: third pass at width 4
        have hinv30 := passInv_refilter w 2 4 b _ out2 p2 f2 hinv2
        rcases hpd3 : processDim w 4 (filterAlreadyProcessedStores out2) p2 f2 with
          ⟨out3, p3, f3, ch3⟩
        obtain ⟨hinv3, hf3, hsat4⟩ :=
          onePass_spec w 4 (by omega) b _ p2 f2 hinv30 out3 p3 f3 ch3 hpd3
        have hout3ne : out3 ≠ [] := by
          intro h0
          have hll := hinv3.len
          rw [h0] at hll
          simp at hll
          exact hr2ne (List.eq_nil_of_length_eq_zero hll.symm)
        have hkeep1b : out3.Pairwise (satRel w 1) :=
          satRel_pairwise_transfer w 1 (4 * 2) (by omega) (by omega) _ out3
            hinv3.len hinv3.sizes hsat1r2
        have hkeep2b : out3.Pairwise (satRel w 2) :=
          satRel_pairwise_transfer w 2 (4 * 2) (by omega) (by omega) _ out3
            hinv3.len hinv3.sizes hsat2r2
        have hsat1r3 : (filterAlreadyProcessedStores out3).Pairwise (satRel w 1) :=
          List.Pairwise.sublist (List.filter_sublist _) hkeep1b
        have hsat2r3 : (filterAlreadyProcessedStores out3).Pairwise (satRel w 2) :=
          List.Pairwise.sublist (List.filter_sublist _) hkeep2b
        have hsat4r3 : (filterAlreadyProcessedStores out3).Pairwise (satRel w 4) :=
          List.Pairwise.sublist (List.filter_sublist _) hsat4
        have hordr3 : (filterAlreadyProcessedStores out3).Pairwise recOrder :=
          List.Pairwise.sublist (List.filter_sublist _) hinv3.order
        have hnzr3 : ∀ r ∈ filterAlreadyProcessedStores out3, r.size ≠ 0 :=
          fun r hr => (mem_filterAlive _ _ hr).2
        have hr3ne : filterAlreadyProcessedStores out3 ≠ [] :=
          filter_ne_nil_of_tomb 4 (by omega) out3 hout3ne hinv3.tomb
        have heq : processBlockOfStores w (segRecords P) P f =
            (filterAlreadyProcessedStores out3, p3, f3, ch1 || ch2 || ch3) := by
          unfold processBlockOfStores
          rw [if_neg hl]
          dsimp only
          rw [if_neg (by simp [hovf]), if_neg hw]
          simp only [hpd1, hpd2, hpd3]
        rw [heq]
        refine ⟨hinv3.noeff, ?_, ?_, ?_, Nat.le_trans hf1 (Nat.le_trans hf2 hf3)⟩
        · exact baseUniform_of_ms b p3 out3 hinv3.ms
            (fun r hr hz => (hinv3.rcons r hr hz).2.2)
        · exact satRecords_of_cores w (filterAlreadyProcessedStores out3)
            (segRecords p3) hinv3.ms hordr3 hnzr3 hsat1r3 hsat2r3
            (fun hww => hsat4r3)
        · intro hPne h0
          have hl1 : ((segRecords p3).map core).length = 0 := by
            rw [List.length_map, segRecords, segRecordsAux_length, h0]
            rfl
          have hl2 : (aliveCores out3).length = 0 := by
            rw [← hinv3.ms.length_eq, hl1]
          have hl3 : (filterAlreadyProcessedStores out3).length = 0 := by
            have hl4 : (aliveCores out3).length =
                (filterAlreadyProcessedStores out3).length := by
              unfold aliveCores
              rw [List.length_map]
            omega
          exact hr3ne (List.eq_nil_of_length_eq_zero hl3)

end StoreMerging

namespace StoreMerging

/-! ### Stepping the Run Builder, one instruction shape at a time -/

theorem stepInstr_other_false (w : Bool) (st : ScanState) :
    stepInstr w st (.other false) =
      ⟨st.committed, st.pending ++ [.other false], st.currentPtr, st.records,
       st.fresh, st.changed⟩ := rfl

theorem stepInstr_other_true (w : Bool) (st : ScanState) :
    stepInstr w st (.other true) =
      ⟨st.committed ++ (processBlockOfStores w st.records st.pending st.fresh).2.1 ++
         [.other true],
       [], none, [],
       (processBlockOfStores w st.records st.pending st.fresh).2.2.1,
       st.changed || (processBlockOfStores w st.records st.pending st.fresh).2.2.2⟩ := by
  unfold stepInstr flushRun
  dsimp only
  rfl

theorem stepInstr_store_noflush (w : Bool) (st : ScanState) (sid : Nat)
    (sd : StoreData)
    (hc : ¬(st.currentPtr ≠ none ∧
      st.currentPtr ≠ some (findBasePointerAndOffset sd.ptr).1)) :
    stepInstr w st (.store sid sd) =
      ⟨st.committed, st.pending ++ [.store sid sd],
       some (findBasePointerAndOffset sd.ptr).1,
       st.records ++ [⟨sid, sd, getTypeAllocSize sd.val.ty,
         (findBasePointerAndOffset sd.ptr).2, st.records.length⟩],
       st.fresh, st.changed⟩ := by
  unfold stepInstr
  dsimp only
  rw [if_neg hc]

theorem stepInstr_store_flush (w : Bool) (st : ScanState) (sid : Nat)
    (sd : StoreData)
    (hc : st.currentPtr ≠ none ∧
      st.currentPtr ≠ some (findBasePointerAndOffset sd.ptr).1) :
    stepInstr w st (.store sid sd) =
      ⟨st.committed ++ (processBlockOfStores w st.records st.pending st.fresh).2.1,
       [.store sid sd],
       some (findBasePointerAndOffset sd.ptr).1,
       [⟨sid, sd, getTypeAllocSize sd.val.ty,
         (findBasePointerAndOffset sd.ptr).2, 0⟩],
       (processBlockOfStores w st.records st.pending st.fresh).2.2.1,
       st.changed || (processBlockOfStores w st.records st.pending st.fresh).2.2.2⟩ := by
  unfold stepInstr flushRun
  dsimp only
  rw [if_pos hc]
  rfl

theorem flushRun_committed (w : Bool) (st : ScanState) :
    (flushRun w st).committed = st.committed := rfl

theorem flushRun_records (w : Bool) (st : ScanState) :
    (flushRun w st).records = st.records := rfl

theorem flushRun_pending_of_sat (w : Bool) (st : ScanState)
    (h : SatRecords w st.records) : (flushRun w st).pending = st.pending :=
  (h st.pending st.fresh).1

theorem flushRun_changed_of_sat (w : Bool) (st : ScanState)
    (h : SatRecords w st.records) : (flushRun w st).changed = st.changed := by
  show (st.changed || (processBlockOfStores w st.records st.pending st.fresh).2.2.2) =
    st.changed
  rw [(h st.pending st.fresh).2, Bool.or_false]

theorem processBlockOfStores_nil_records (w : Bool) (p : List Instr) (f : Nat) :
    processBlockOfStores w [] p f = ([], p, f, false) := by
  unfold processBlockOfStores
  rw [if_pos (by simp)]

theorem satRecords_nil (w : Bool) : SatRecords w ([] : List StoreAndOffset) := by
  intro p f
  rw [processBlockOfStores_nil_records]
  exact ⟨rfl, rfl⟩

theorem sidsOf_append (a b : List Instr) :
    sidsOf (a ++ b) = sidsOf a ++ sidsOf b := by
  simp [sidsOf, List.filterMap_append]

theorem foldl_nonstores (w : Bool) :
    ∀ (NS : List Instr), (∀ x ∈ NS, x = Instr.other false) →
      ∀ st : ScanState, NS.foldl (stepInstr w) st =
        ⟨st.committed, st.pending ++ NS, st.currentPtr, st.records, st.fresh,
         st.changed⟩ := by
  intro NS
  induction NS with
  | nil =>
    intro hns st
    rw [List.foldl_nil, List.append_nil]
  | cons i rest ih =>
    intro hns st
    have hi := hns i (List.mem_cons_self _ _)
    subst hi
    rw [List.foldl_cons, stepInstr_other_false,
      ih (fun x hx => hns x (List.mem_cons_of_mem _ hx)) _]
    rw [List.append_assoc]
    rfl

theorem foldl_samebase (w : Bool) (b : Value) :
    ∀ (l : List Instr) (st : ScanState),
      noEffect l → baseUniform b l → st.currentPtr = some b →
      l.foldl (stepInstr w) st =
        ⟨st.committed, st.pending ++ l, some b,
         st.records ++ segRecordsAux st.records.length l, st.fresh,
         st.changed⟩ := by
  intro l
  induction l with
  | nil =>
    intro st hne hbu hcp
    rw [List.foldl_nil, List.append_nil]
    show st = ⟨st.committed, st.pending, some b, st.records ++ segRecordsAux _ [],
      st.fresh, st.changed⟩
    rw [← hcp]
    show st = ⟨st.committed, st.pending, st.currentPtr, st.records ++ [], st.fresh,
      st.changed⟩
    rw [List.append_nil]
  | cons i rest ih =>
    intro st hne hbu hcp
    rw [List.foldl_cons]
    cases i with
    | other e =>
      have he : e = false := by
        cases e with
        | false => rfl
        | true => exact absurd rfl (hne _ (List.mem_cons_self _ _))
      subst he
      rw [stepInstr_other_false,
        ih ⟨st.committed, st.pending ++ [Instr.other false], st.currentPtr,
            st.records, st.fresh, st.changed⟩
          (fun x hx => hne x (List.mem_cons_of_mem _ hx))
          (fun s d hm => hbu s d (List.mem_cons_of_mem _ hm)) hcp]
      rw [segRecordsAux_cons_other, List.append_assoc]
      rfl
    | store sid sd =>
      have hbase : (findBasePointerAndOffset sd.ptr).1 = b :=
        hbu sid sd (List.mem_cons_self _ _)
      rw [stepInstr_store_noflush w st sid sd
        (fun hx => hx.2 (by rw [hcp, hbase]))]
      rw [ih ⟨st.committed, st.pending ++ [Instr.store sid sd],
            some (findBasePointerAndOffset sd.ptr).1,
            st.records ++ [(⟨sid, sd, getTypeAllocSize sd.val.ty,
              (findBasePointerAndOffset sd.ptr).2, st.records.length⟩ :
                StoreAndOffset)],
            st.fresh, st.changed⟩
          (fun x hx => hne x (List.mem_cons_of_mem _ hx))
          (fun s d hm => hbu s d (List.mem_cons_of_mem _ hm))
          (congrArg some hbase)]
      rw [segRecordsAux_cons_store, List.append_assoc, List.append_assoc]
      have hlen : (st.records ++ [(⟨sid, sd, getTypeAllocSize sd.val.ty,
          (findBasePointerAndOffset sd.ptr).2, st.records.length⟩ :
            StoreAndOffset)]).length = st.records.length + 1 := by
        simp
      rw [hlen, hbase]
      rfl

end StoreMerging

namespace StoreMerging

/-- Scanning a processed, base-uniform, effect-free segment that contains a
store: the scanner appends the segment in order, rebuilds exactly the
segment records, parks the base, and reports no change.  The start state is
either fresh (empty pending and records) or holds a saturated previous
segment parked on a different base, which the first store then flushes as a
no-op. -/
theorem chunkScan (w : Bool) (b : Value) (Q : List Instr)
    (hne : noEffect Q) (hbu : baseUniform b Q) (hs : storesOf Q ≠ [])
    (st2 : ScanState)
    (hok : (st2.pending = [] ∧ st2.records = []) ∨
      (SatRecords w st2.records ∧ ∃ bh, st2.currentPtr = some bh ∧ bh ≠ b)) :
    (Q.foldl (stepInstr w) st2).committed ++ (Q.foldl (stepInstr w) st2).pending =
      st2.committed ++ st2.pending ++ Q ∧
    (Q.foldl (stepInstr w) st2).records = segRecords Q ∧
    (Q.foldl (stepInstr w) st2).currentPtr = some b ∧
    (Q.foldl (stepInstr w) st2).changed = st2.changed := by
  obtain ⟨NS, s, sd, rest, hq, hnsn⟩ := exists_first_store Q hs
  subst hq
  have hnsall : ∀ x ∈ NS, x = Instr.other false :=
    all_other_of_storesOf_nil NS hnsn
      (fun i hi => hne i (List.mem_append.mpr (Or.inl hi)))
  have hbase : (findBasePointerAndOffset sd.ptr).1 = b :=
    hbu s sd (List.mem_append.mpr (Or.inr (List.mem_cons_self _ _)))
  have hnerest : noEffect rest :=
    fun i hi => hne i (List.mem_append.mpr (Or.inr (List.mem_cons_of_mem _ hi)))
  have hburest : baseUniform b rest :=
    fun x xd hm => hbu x xd (List.mem_append.mpr (Or.inr (List.mem_cons_of_mem _ hm)))
  rw [List.foldl_append, foldl_nonstores w NS hnsall st2, List.foldl_cons]
  rw [segRecords, segRecordsAux_noStore_prefix NS _ 0 hnsall,
    segRecordsAux_cons_store]
  by_cases hc : st2.currentPtr ≠ none ∧
      st2.currentPtr ≠ some (findBasePointerAndOffset sd.ptr).1
  · have hpb : (processBlockOfStores w st2.records (st2.pending ++ NS)
        st2.fresh).2.1 = st2.pending ++ NS ∧
        (processBlockOfStores w st2.records (st2.pending ++ NS)
          st2.fresh).2.2.2 = false := by
      rcases hok with ⟨hp, hr⟩ | ⟨hsat, bh, hcp2, hbne⟩
      · rw [hr, processBlockOfStores_nil_records]
        exact ⟨rfl, rfl⟩
      · exact hsat (st2.pending ++ NS) st2.fresh
    have hstep : stepInstr w ⟨st2.committed, st2.pending ++ NS, st2.currentPtr,
        st2.records, st2.fresh, st2.changed⟩ (Instr.store s sd) =
        ⟨st2.committed ++ (st2.pending ++ NS), [Instr.store s sd],
         some (findBasePointerAndOffset sd.ptr).1,
         [(⟨s, sd, getTypeAllocSize sd.val.ty,
           (findBasePointerAndOffset sd.ptr).2, 0⟩ : StoreAndOffset)],
         (processBlockOfStores w st2.records (st2.pending ++ NS)
           st2.fresh).2.2.1,
         st2.changed⟩ := by
      rw [stepInstr_store_flush w ⟨st2.committed, st2.pending ++ NS,
        st2.currentPtr, st2.records, st2.fresh, st2.changed⟩ s sd hc]
      dsimp only
      rw [hpb.1, hpb.2, Bool.or_false]
    rw [hstep, foldl_samebase w b rest ⟨st2.committed ++ (st2.pending ++ NS),
        [Instr.store s sd], some (findBasePointerAndOffset sd.ptr).1,
        [(⟨s, sd, getTypeAllocSize sd.val.ty,
          (findBasePointerAndOffset sd.ptr).2, 0⟩ : StoreAndOffset)],
        (processBlockOfStores w st2.records (st2.pending ++ NS)
          st2.fresh).2.2.1,
        st2.changed⟩ hnerest hburest (congrArg some hbase)]
    refine ⟨?_, ?_, ?_, rfl⟩
    · dsimp only
      simp [List.append_assoc]
    · dsimp only
      rfl
    · dsimp only
  · have hclean : st2.pending = [] ∧ st2.records = [] := by
      rcases hok with h | ⟨hsat, bh, hcp2, hbne⟩
      · exact h
      · exfalso
        apply hc
        refine ⟨by rw [hcp2]; simp, ?_⟩
        rw [hcp2, hbase]
        intro he
        exact hbne (Option.some.inj he)
    obtain ⟨hp, hr⟩ := hclean
    have hstep : stepInstr w ⟨st2.committed, st2.pending ++ NS, st2.currentPtr,
        st2.records, st2.fresh, st2.changed⟩ (Instr.store s sd) =
        ⟨st2.committed, (st2.pending ++ NS) ++ [Instr.store s sd],
         some (findBasePointerAndOffset sd.ptr).1,
         [(⟨s, sd, getTypeAllocSize sd.val.ty,
           (findBasePointerAndOffset sd.ptr).2, 0⟩ : StoreAndOffset)],
         st2.fresh, st2.changed⟩ := by
      rw [stepInstr_store_noflush w ⟨st2.committed, st2.pending ++ NS,
        st2.currentPtr, st2.records, st2.fresh, st2.changed⟩ s sd hc]
      dsimp only
      rw [hr]
      rfl
    rw [hstep, foldl_samebase w b rest ⟨st2.committed,
        (st2.pending ++ NS) ++ [Instr.store s sd],
        some (findBasePointerAndOffset sd.ptr).1,
        [(⟨s, sd, getTypeAllocSize sd.val.ty,
          (findBasePointerAndOffset sd.ptr).2, 0⟩ : StoreAndOffset)],
        st2.fresh, st2.changed⟩ hnerest hburest (congrArg some hbase)]
    refine ⟨?_, ?_, ?_, rfl⟩
    · dsimp only
      simp [List.append_assoc]
    · dsimp only
      rfl
    · dsimp only

end StoreMerging

namespace StoreMerging

theorem scanOut_eq (w : Bool) (st2 : ScanState) (L : List Instr)
    (out : List Instr) (ch : Bool)
    (h1 : (flushRun w (L.foldl (stepInstr w) st2)).committed ++
      (flushRun w (L.foldl (stepInstr w) st2)).pending = out)
    (h2 : (flushRun w (L.foldl (stepInstr w) st2)).changed = ch) :
    scanOut w st2 L = (out, ch) := by
  unfold scanOut
  dsimp only
  rw [h1, h2]

theorem sidsOf_singleton_store (s : Nat) (d : StoreData) :
    sidsOf [Instr.store s d] = [s] := rfl

theorem sidsOf_singleton_other (e : Bool) : sidsOf [Instr.other e] = [] := rfl

theorem storesOf_singleton_other (e : Bool) : storesOf [Instr.other e] = [] := rfl

end StoreMerging

namespace StoreMerging

/-- Replay tail across an effectful boundary: after scanning the processed
chunk, the effectful instruction flushes it as a no-op and the replay
continues from a fresh state. -/
theorem replay_tail_true (w : Bool) (st2 Tst : ScanState) (PP D PF : List Instr)
    (hfold : Tst = PP.foldl (stepInstr w) st2)
    (hg1 : Tst.committed ++ Tst.pending = st2.committed ++ st2.pending ++ PP)
    (hg2 : SatRecords w Tst.records)
    (hg3 : Tst.changed = false)
    (hrepl : ∀ st2b : ScanState, st2b.changed = false →
      st2b.pending = [] ∧ st2b.records = [] →
      scanOut w st2b (D ++ PF) =
        (st2b.committed ++ st2b.pending ++ D ++ PF, false)) :
    scanOut w st2 ((PP ++ [Instr.other true] ++ D) ++ PF) =
      (st2.committed ++ st2.pending ++ (PP ++ [Instr.other true] ++ D) ++ PF,
        false) := by
  have hst2 := stepInstr_other_true w Tst
  have hch2 : (stepInstr w Tst (Instr.other true)).changed = false := by
    rw [hst2]
    dsimp only
    rw [(hg2 Tst.pending Tst.fresh).2, Bool.or_false, hg3]
  have hok2 : (stepInstr w Tst (Instr.other true)).pending = [] ∧
      (stepInstr w Tst (Instr.other true)).records = [] := by
    rw [hst2]
    exact ⟨rfl, rfl⟩
  have hmain := hrepl (stepInstr w Tst (Instr.other true)) hch2 hok2
  have hfoldeq : ((PP ++ [Instr.other true] ++ D) ++ PF).foldl (stepInstr w) st2 =
      (D ++ PF).foldl (stepInstr w) (stepInstr w Tst (Instr.other true)) := by
    conv_lhs => rw [List.append_assoc, List.append_assoc, List.foldl_append,
      List.foldl_append, List.foldl_cons, List.foldl_nil]
    rw [← hfold]
  have hsc : scanOut w st2 ((PP ++ [Instr.other true] ++ D) ++ PF) =
      scanOut w (stepInstr w Tst (Instr.other true)) (D ++ PF) := by
    unfold scanOut
    dsimp only
    rw [hfoldeq]
  rw [hsc, hmain]
  refine congrArg (fun l => (l, false)) ?_
  rw [hst2]
  dsimp only
  rw [(hg2 Tst.pending Tst.fresh).1, hg1]
  simp [List.append_assoc]

/-- Replay tail across a base-change boundary: the held chunk is flushed as
a no-op by the first store of the next chunk, which the continuation scans
itself. -/
theorem replay_tail_store (w : Bool) (st2 Tst : ScanState) (PP D PF : List Instr)
    (bnew bb : Value)
    (hfold : Tst = PP.foldl (stepInstr w) st2)
    (hg1 : Tst.committed ++ Tst.pending = st2.committed ++ st2.pending ++ PP)
    (hg2 : SatRecords w Tst.records)
    (hg3 : Tst.changed = false)
    (hcp3 : Tst.currentPtr = some bb)
    (hne3 : bb ≠ bnew)
    (hrepl : ∀ st2b : ScanState, st2b.changed = false →
      ((st2b.pending = [] ∧ st2b.records = []) ∨
        (SatRecords w st2b.records ∧ ∃ bb2 bh, some bnew = some bb2 ∧
          st2b.currentPtr = some bh ∧ bh ≠ bb2)) →
      scanOut w st2b (D ++ PF) =
        (st2b.committed ++ st2b.pending ++ D ++ PF, false)) :
    scanOut w st2 ((PP ++ D) ++ PF) =
      (st2.committed ++ st2.pending ++ (PP ++ D) ++ PF, false) := by
  have hmain := hrepl Tst hg3 (Or.inr ⟨hg2, bnew, bb, rfl, hcp3, hne3⟩)
  have hfoldeq : ((PP ++ D) ++ PF).foldl (stepInstr w) st2 =
      (D ++ PF).foldl (stepInstr w) Tst := by
    conv_lhs => rw [List.append_assoc, List.foldl_append]
    rw [← hfold]
  have hsc : scanOut w st2 ((PP ++ D) ++ PF) =
      scanOut w Tst (D ++ PF) := by
    unfold scanOut
    dsimp only
    rw [hfoldeq]
  rw [hsc, hmain]
  refine congrArg (fun l => (l, false)) ?_
  rw [hg1]
  simp [List.append_assoc]

end StoreMerging

namespace StoreMerging

/-- The central replay theorem: scanning run 1's committed output plus its
final processed segment from any admissible second-run state reproduces the
instruction stream exactly and reports no change. -/
theorem scan_replay (w : Bool) :
    ∀ (blk : List Instr) (st : ScanState),
      st.records = segRecords st.pending →
      noEffect st.pending →
      (∀ sid sd, Instr.store sid sd ∈ st.pending →
        1 ≤ getTypeAllocSize sd.val.ty) →
      (sidsOf st.pending ++ sidsOf blk).Nodup →
      (∀ s ∈ sidsOf st.pending, s < st.fresh) →
      (∀ s ∈ sidsOf blk, s < st.fresh) →
      (∀ sid sd, Instr.store sid sd ∈ blk → 1 ≤ getTypeAllocSize sd.val.ty) →
      (match st.currentPtr with
       | none => storesOf st.pending = []
       | some bb => baseUniform bb st.pending ∧ storesOf st.pending ≠ []) →
      ∃ D : List Instr,
        (blk.foldl (stepInstr w) st).committed = st.committed ++ D ∧
        ∀ st2 : ScanState, st2.changed = false →
          ((st2.pending = [] ∧ st2.records = []) ∨
            (SatRecords w st2.records ∧ ∃ bb bh, st.currentPtr = some bb ∧
              st2.currentPtr = some bh ∧ bh ≠ bb)) →
          scanOut w st2
              (D ++ (flushRun w (blk.foldl (stepInstr w) st)).pending) =
            (st2.committed ++ st2.pending ++ D ++
              (flushRun w (blk.foldl (stepInstr w) st)).pending, false) := by
  intro blk
  induction blk with
  | nil =>
    intro st hrec hne hsz hnd hfb1 hfb2 hsz2 hcp
    refine ⟨[], by rw [List.foldl_nil, List.append_nil], ?_⟩
    intro st2 hch2 hok
    rw [List.foldl_nil]
    cases hcpv : st.currentPtr with
    | none =>
      replace hcp : storesOf st.pending = [] := by rw [hcpv] at hcp; exact hcp
      have hrecnil : st.records = [] := by
        rw [hrec, segRecords, segRecordsAux_eq_nil 0 _ hcp]
      have hPf : (flushRun w st).pending = st.pending :=
        flushRun_pending_of_sat w st (by rw [hrecnil]; exact satRecords_nil w)
      rw [hPf, List.nil_append, List.append_nil]
      have hclean : st2.pending = [] ∧ st2.records = [] := by
        rcases hok with h | ⟨-, bb, bh, hbb, -, -⟩
        · exact h
        · rw [hcpv] at hbb; exact Option.noConfusion hbb
      have hall : ∀ x ∈ st.pending, x = Instr.other false :=
        all_other_of_storesOf_nil _ hcp hne
      have hsatl : SatRecords w (⟨st2.committed, st2.pending ++ st.pending,
          st2.currentPtr, st2.records, st2.fresh, st2.changed⟩ :
            ScanState).records := by
        dsimp only
        rw [hclean.2]
        exact satRecords_nil w
      refine scanOut_eq w st2 st.pending _ _ ?_ ?_
      · rw [foldl_nonstores w _ hall st2, flushRun_pending_of_sat w _ hsatl,
          flushRun_committed]
        dsimp only
        rw [List.append_assoc]
      · rw [foldl_nonstores w _ hall st2, flushRun_changed_of_sat w _ hsatl]
        exact hch2
    | some bb =>
      replace hcp : baseUniform bb st.pending ∧ storesOf st.pending ≠ [] := by
        rw [hcpv] at hcp; exact hcp
      have hndP : (sidsOf st.pending).Nodup := by
        have h0 := hnd
        rw [show sidsOf ([] : List Instr) = [] from rfl, List.append_nil] at h0
        exact h0
      obtain ⟨hne2, hbu3, hsat3, hst3, hf3⟩ :=
        processBlockOfStores_spec w bb st.pending st.fresh hne hcp.1 hndP hsz hfb1
      have hflush : (flushRun w st).pending =
          (processBlockOfStores w (segRecords st.pending) st.pending
            st.fresh).2.1 := by
        show (processBlockOfStores w st.records st.pending st.fresh).2.1 = _
        rw [hrec]
      rw [hflush, List.nil_append, List.append_nil]
      have hok2 : (st2.pending = [] ∧ st2.records = []) ∨
          (SatRecords w st2.records ∧ ∃ bh, st2.currentPtr = some bh ∧
            bh ≠ bb) := by
        rcases hok with h | ⟨hsat, bb2, bh, hbb2, hcp2, hne3⟩
        · exact Or.inl h
        · rw [hcpv] at hbb2
          refine Or.inr ⟨hsat, bh, hcp2, ?_⟩
          rw [Option.some.inj hbb2]
          exact hne3
      obtain ⟨hc1, hc2, hc3, hc4⟩ :=
        chunkScan w bb _ hne2 hbu3 (hst3 hcp.2) st2 hok2
      have hsatf : SatRecords w
          (((processBlockOfStores w (segRecords st.pending) st.pending
            st.fresh).2.1).foldl (stepInstr w) st2).records := by
        rw [hc2]
        exact hsat3
      refine scanOut_eq w st2 _ _ _ ?_ ?_
      · rw [flushRun_pending_of_sat w _ hsatf, flushRun_committed]
        exact hc1
      · rw [flushRun_changed_of_sat w _ hsatf, hc4]
        exact hch2
  | cons ins rest ih =>
    intro st hrec hne hsz hnd hfb1 hfb2 hsz2 hcp
    rw [List.foldl_cons]
    cases ins with
    | other e =>
      cases e with
      | false =>
        rw [stepInstr_other_false]
        have hsegX : segRecords (st.pending ++ [Instr.other false]) =
            segRecords st.pending := by
          rw [segRecords, segRecords, segRecordsAux_append_other]
        have hsidsX : sidsOf (st.pending ++ [Instr.other false]) =
            sidsOf st.pending := by
          rw [sidsOf_append, sidsOf_singleton_other, List.append_nil]
        have hstX : storesOf (st.pending ++ [Instr.other false]) =
            storesOf st.pending := by
          rw [storesOf_append, storesOf_singleton_other, List.append_nil]
        obtain ⟨D, hD, hrepl⟩ := ih
          ⟨st.committed, st.pending ++ [Instr.other false], st.currentPtr,
           st.records, st.fresh, st.changed⟩
          (by dsimp only; rw [hsegX]; exact hrec)
          (by dsimp only
              intro i hi
              rcases List.mem_append.mp hi with h | h
              · exact hne i h
              · rw [List.mem_singleton.mp h]; simp)
          (by dsimp only
              intro s d hm
              rcases List.mem_append.mp hm with h | h
              · exact hsz s d h
              · simp at h)
          (by dsimp only
              rw [hsidsX]
              have h0 := hnd
              rw [sidsOf_cons_other] at h0
              exact h0)
          (by dsimp only
              rw [hsidsX]
              exact hfb1)
          (by dsimp only
              intro s hs
              exact hfb2 s (by rwa [sidsOf_cons_other]))
          (fun s d hm => hsz2 s d (List.mem_cons_of_mem _ hm))
          (by dsimp only
              cases hcpe : st.currentPtr with
              | none =>
                replace hcp : storesOf st.pending = [] := by
                  rw [hcpe] at hcp; exact hcp
                show storesOf (st.pending ++ [Instr.other false]) = []
                rw [hstX]
                exact hcp
              | some bb =>
                replace hcp : baseUniform bb st.pending ∧
                    storesOf st.pending ≠ [] := by
                  rw [hcpe] at hcp; exact hcp
                show baseUniform bb (st.pending ++ [Instr.other false]) ∧
                  storesOf (st.pending ++ [Instr.other false]) ≠ []
                refine ⟨?_, by rw [hstX]; exact hcp.2⟩
                intro x xd hm
                rcases List.mem_append.mp hm with h | h
                · exact hcp.1 x xd h
                · simp at h)
        exact ⟨D, hD, hrepl⟩
      | true =>
        rw [stepInstr_other_true]
        have hchunk : ∀ st2 : ScanState, st2.changed = false →
            ((st2.pending = [] ∧ st2.records = []) ∨
              (SatRecords w st2.records ∧ ∃ bb bh, st.currentPtr = some bb ∧
                st2.currentPtr = some bh ∧ bh ≠ bb)) →
            (((processBlockOfStores w st.records st.pending st.fresh).2.1).foldl
                (stepInstr w) st2).committed ++
              (((processBlockOfStores w st.records st.pending st.fresh).2.1).foldl
                (stepInstr w) st2).pending =
              st2.committed ++ st2.pending ++
                (processBlockOfStores w st.records st.pending st.fresh).2.1 ∧
            SatRecords w ((((processBlockOfStores w st.records st.pending
              st.fresh).2.1).foldl (stepInstr w) st2)).records ∧
            ((((processBlockOfStores w st.records st.pending st.fresh).2.1).foldl
              (stepInstr w) st2)).changed = false := by
          intro st2 hch hok
          cases hcpv : st.currentPtr with
          | none =>
            replace hcp : storesOf st.pending = [] := by
              rw [hcpv] at hcp; exact hcp
            have hrecnil : st.records = [] := by
              rw [hrec, segRecords, segRecordsAux_eq_nil 0 _ hcp]
            have hPP : (processBlockOfStores w st.records st.pending
                st.fresh).2.1 = st.pending := by
              rw [hrecnil, processBlockOfStores_nil_records]
            have hclean : st2.pending = [] ∧ st2.records = [] := by
              rcases hok with h | ⟨-, bb, bh, hbb, -, -⟩
              · exact h
              · rw [hcpv] at hbb; exact Option.noConfusion hbb
            rw [hPP, foldl_nonstores w _ (all_other_of_storesOf_nil _ hcp hne) st2]
            dsimp only
            refine ⟨by rw [List.append_assoc], ?_, hch⟩
            rw [hclean.2]
            exact satRecords_nil w
          | some bb =>
            replace hcp : baseUniform bb st.pending ∧
                storesOf st.pending ≠ [] := by
              rw [hcpv] at hcp; exact hcp
            have hndP : (sidsOf st.pending).Nodup := (List.nodup_append.mp hnd).1
            obtain ⟨hne2, hbu3, hsat3, hst3, hf3⟩ :=
              processBlockOfStores_spec w bb st.pending st.fresh hne hcp.1 hndP
                hsz hfb1
            rw [hrec]
            have hok2 : (st2.pending = [] ∧ st2.records = []) ∨
                (SatRecords w st2.records ∧ ∃ bh, st2.currentPtr = some bh ∧
                  bh ≠ bb) := by
              rcases hok with h | ⟨hsat, bb2, bh, hbb2, hcp2, hne3⟩
              · exact Or.inl h
              · rw [hcpv] at hbb2
                refine Or.inr ⟨hsat, bh, hcp2, ?_⟩
                rw [Option.some.inj hbb2]
                exact hne3
            obtain ⟨hc1, hc2, hc3, hc4⟩ :=
              chunkScan w bb _ hne2 hbu3 (hst3 hcp.2) st2 hok2
            rw [hch] at hc4
            exact ⟨hc1, by rw [hc2]; exact hsat3, hc4⟩
        have hfmono : st.fresh ≤
            (processBlockOfStores w st.records st.pending st.fresh).2.2.1 :=
          processBlockOfStores_fresh_mono w _ _ _
        obtain ⟨D, hD, hrepl⟩ := ih
          ⟨st.committed ++ (processBlockOfStores w st.records st.pending
             st.fresh).2.1 ++ [Instr.other true], [], none, [],
           (processBlockOfStores w st.records st.pending st.fresh).2.2.1,
           st.changed || (processBlockOfStores w st.records st.pending
             st.fresh).2.2.2⟩
          rfl
          (fun i hi => absurd hi (List.not_mem_nil i))
          (fun s d hm => absurd hm (List.not_mem_nil _))
          (by dsimp only
              show (sidsOf ([] : List Instr) ++ sidsOf rest).Nodup
              rw [show sidsOf ([] : List Instr) = [] from rfl, List.nil_append]
              have h0 := hnd
              rw [sidsOf_cons_other] at h0
              exact (List.nodup_append.mp h0).2.1)
          (fun s hs => absurd hs (List.not_mem_nil s))
          (by dsimp only
              intro s hs
              have h1 : s < st.fresh := hfb2 s (by rwa [sidsOf_cons_other])
              omega)
          (fun s d hm => hsz2 s d (List.mem_cons_of_mem _ hm))
          rfl
        refine ⟨(processBlockOfStores w st.records st.pending st.fresh).2.1 ++
          [Instr.other true] ++ D, ?_, ?_⟩
        · rw [hD]
          dsimp only
          simp [List.append_assoc]
        · intro st2 hch hok
          obtain ⟨hg1, hg2, hg3⟩ := hchunk st2 hch hok
          exact replay_tail_true w st2 _ _ D _ rfl hg1 hg2 hg3
            (fun st2b h1 h2 => hrepl st2b h1 (Or.inl h2))
    | store sid sd =>
      by_cases hc : st.currentPtr ≠ none ∧
          st.currentPtr ≠ some (findBasePointerAndOffset sd.ptr).1
      · obtain ⟨bb, hcpv⟩ : ∃ bb, st.currentPtr = some bb := by
          cases hcpe : st.currentPtr with
          | none => exact absurd hcpe hc.1
          | some bb => exact ⟨bb, rfl⟩
        replace hcp : baseUniform bb st.pending ∧ storesOf st.pending ≠ [] := by
          rw [hcpv] at hcp; exact hcp
        have hbne : bb ≠ (findBasePointerAndOffset sd.ptr).1 := by
          intro he
          apply hc.2
          rw [hcpv, he]
        rw [stepInstr_store_flush w st sid sd hc]
        have hndP : (sidsOf st.pending).Nodup := (List.nodup_append.mp hnd).1
        obtain ⟨hne2, hbu3, hsat3, hst3, hf3⟩ :=
          processBlockOfStores_spec w bb st.pending st.fresh hne hcp.1 hndP
            hsz hfb1
        have hrecswap : processBlockOfStores w st.records st.pending st.fresh =
            processBlockOfStores w (segRecords st.pending) st.pending
              st.fresh := by
          rw [hrec]
        rw [hrecswap]
        have hsidins : sid ∈ sidsOf (Instr.store sid sd :: rest) := by
          rw [sidsOf_cons_store]
          exact List.mem_cons_self _ _
        obtain ⟨D, hD, hrepl⟩ := ih
          ⟨st.committed ++ (processBlockOfStores w (segRecords st.pending)
             st.pending st.fresh).2.1,
           [Instr.store sid sd],
           some (findBasePointerAndOffset sd.ptr).1,
           [⟨sid, sd, getTypeAllocSize sd.val.ty,
             (findBasePointerAndOffset sd.ptr).2, 0⟩],
           (processBlockOfStores w (segRecords st.pending) st.pending
             st.fresh).2.2.1,
           st.changed || (processBlockOfStores w (segRecords st.pending)
             st.pending st.fresh).2.2.2⟩
          rfl
          (by intro i hi
              rw [List.mem_singleton.mp hi]
              simp)
          (by intro s d hm
              have h1 := List.mem_singleton.mp hm
              injection h1 with h2 h3
              rw [h3]
              exact hsz2 sid sd (List.mem_cons_self _ _))
          (by dsimp only
              rw [sidsOf_singleton_store]
              have h0 := hnd
              rw [sidsOf_cons_store] at h0
              exact (List.nodup_append.mp h0).2.1)
          (by dsimp only
              intro s hs
              rw [sidsOf_singleton_store] at hs
              have hseq : s = sid := List.mem_singleton.mp hs
              subst hseq
              have h1 : s < st.fresh := hfb2 s hsidins
              omega)
          (by dsimp only
              intro s hs
              have h1 : s < st.fresh := hfb2 s
                (by rw [sidsOf_cons_store]; exact List.mem_cons_of_mem _ hs)
              omega)
          (fun s d hm => hsz2 s d (List.mem_cons_of_mem _ hm))
          (by dsimp only
              show baseUniform (findBasePointerAndOffset sd.ptr).1
                  [Instr.store sid sd] ∧
                storesOf [Instr.store sid sd] ≠ []
              refine ⟨?_, by simp [storesOf]⟩
              intro x xd hm
              have h1 := List.mem_singleton.mp hm
              injection h1 with h2 h3
              subst h3
              rfl)
        refine ⟨(processBlockOfStores w (segRecords st.pending) st.pending
          st.fresh).2.1 ++ D, ?_, ?_⟩
        · rw [hD]
          dsimp only
          rw [List.append_assoc]
        · intro st2 hch hok
          have hok2 : (st2.pending = [] ∧ st2.records = []) ∨
              (SatRecords w st2.records ∧ ∃ bh, st2.currentPtr = some bh ∧
                bh ≠ bb) := by
            rcases hok with h | ⟨hsat, bb2, bh, hbb2, hcp2, hne3⟩
            · exact Or.inl h
            · rw [hcpv] at hbb2
              refine Or.inr ⟨hsat, bh, hcp2, ?_⟩
              rw [Option.some.inj hbb2]
              exact hne3
          obtain ⟨hc1, hc2, hc3, hc4⟩ :=
            chunkScan w bb _ hne2 hbu3 (hst3 hcp.2) st2 hok2
          rw [hch] at hc4
          exact replay_tail_store w st2 _ _ D _
            (findBasePointerAndOffset sd.ptr).1 bb rfl hc1
            (by rw [hc2]; exact hsat3) hc4 hc3 hbne
            (fun st2b h1 h2 => hrepl st2b h1 h2)
      · have hcpor : st.currentPtr = none ∨
            st.currentPtr = some (findBasePointerAndOffset sd.ptr).1 := by
          by_cases h1 : st.currentPtr = none
          · exact Or.inl h1
          · by_cases h2 : st.currentPtr = some (findBasePointerAndOffset sd.ptr).1
            · exact Or.inr h2
            · exact absurd ⟨h1, h2⟩ hc
        rw [stepInstr_store_noflush w st sid sd hc]
        have hposX : st.records.length = (storesOf st.pending).length := by
          rw [hrec, segRecords, segRecordsAux_length]
        have hrecX : st.records ++ [(⟨sid, sd, getTypeAllocSize sd.val.ty,
            (findBasePointerAndOffset sd.ptr).2, st.records.length⟩ :
              StoreAndOffset)] =
            segRecords (st.pending ++ [Instr.store sid sd]) := by
          rw [segRecords, segRecordsAux_append_store, ← segRecords, ← hrec]
          rw [hposX, Nat.zero_add]
        have hsidsX : sidsOf (st.pending ++ [Instr.store sid sd]) =
            sidsOf st.pending ++ [sid] := by
          rw [sidsOf_append, sidsOf_singleton_store]
        obtain ⟨D, hD, hrepl⟩ := ih
          ⟨st.committed, st.pending ++ [Instr.store sid sd],
           some (findBasePointerAndOffset sd.ptr).1,
           st.records ++ [⟨sid, sd, getTypeAllocSize sd.val.ty,
             (findBasePointerAndOffset sd.ptr).2, st.records.length⟩],
           st.fresh, st.changed⟩
          (by dsimp only; exact hrecX)
          (by dsimp only
              intro i hi
              rcases List.mem_append.mp hi with h | h
              · exact hne i h
              · rw [List.mem_singleton.mp h]; simp)
          (by dsimp only
              intro s d hm
              rcases List.mem_append.mp hm with h | h
              · exact hsz s d h
              · have h1 := List.mem_singleton.mp h
                injection h1 with h2 h3
                rw [h3]
                exact hsz2 sid sd (List.mem_cons_self _ _))
          (by dsimp only
              rw [hsidsX, List.append_assoc]
              have h0 := hnd
              rw [sidsOf_cons_store] at h0
              exact h0)
          (by dsimp only
              intro s hs
              rw [hsidsX] at hs
              rcases List.mem_append.mp hs with h | h
              · exact hfb1 s h
              · rw [List.mem_singleton.mp h]
                exact hfb2 sid
                  (by rw [sidsOf_cons_store]; exact List.mem_cons_self _ _))
          (by dsimp only
              intro s hs
              exact hfb2 s
                (by rw [sidsOf_cons_store]; exact List.mem_cons_of_mem _ hs))
          (fun s d hm => hsz2 s d (List.mem_cons_of_mem _ hm))
          (by dsimp only
              show baseUniform (findBasePointerAndOffset sd.ptr).1
                  (st.pending ++ [Instr.store sid sd]) ∧
                storesOf (st.pending ++ [Instr.store sid sd]) ≠ []
              constructor
              · intro x xd hm
                rcases List.mem_append.mp hm with h | h
                · rcases hcpor with h1 | h1
                  · replace hcp : storesOf st.pending = [] := by
                      rw [h1] at hcp; exact hcp
                    exfalso
                    have h2 : (x, xd) ∈ storesOf st.pending :=
                      (mem_storesOf_iff _ _ _).mpr h
                    rw [hcp] at h2
                    exact absurd h2 (List.not_mem_nil _)
                  · replace hcp : baseUniform (findBasePointerAndOffset
                        sd.ptr).1 st.pending ∧ storesOf st.pending ≠ [] := by
                      rw [h1] at hcp; exact hcp
                    exact hcp.1 x xd h
                · have h1 := List.mem_singleton.mp h
                  injection h1 with h2 h3
                  subst h3
                  rfl
              · rw [storesOf_append, storesOf_cons_store]
                simp)
        refine ⟨D, hD, ?_⟩
        intro st2 hch hok
        refine hrepl st2 hch ?_
        rcases hok with h | ⟨hsat, bb, bh, hbb, hcp2, hne2⟩
        · exact Or.inl h
        · refine Or.inr ⟨hsat, (findBasePointerAndOffset sd.ptr).1, bh, rfl,
            hcp2, ?_⟩
          rcases hcpor with h1 | h1
          · rw [h1] at hbb
            exact Option.noConfusion hbb
          · rw [h1] at hbb
            rw [Option.some.inj hbb]
            exact hne2

end StoreMerging

namespace StoreMerging

theorem foldl_fresh_mono (blk : List Instr) : ∀ acc : Nat,
    acc ≤ blk.foldl (fun a i => match i with
      | Instr.store sid _ => max a (sid + 1)
      | _ => a) acc := by
  induction blk with
  | nil => intro acc; exact Nat.le_refl acc
  | cons i rest ih =>
    intro acc
    rw [List.foldl_cons]
    cases i with
    | store s d => exact Nat.le_trans (Nat.le_max_left _ _) (ih _)
    | other e => exact ih acc

theorem initialFresh_aux :
    ∀ (blk : List Instr) (acc : Nat) (s : Nat), s ∈ sidsOf blk →
      s < blk.foldl (fun a i => match i with
        | Instr.store sid _ => max a (sid + 1)
        | _ => a) acc := by
  intro blk
  induction blk with
  | nil => intro acc s hs; exact absurd hs (List.not_mem_nil s)
  | cons i rest ih =>
    intro acc s hs
    rw [List.foldl_cons]
    cases i with
    | store sid d =>
      rw [sidsOf_cons_store] at hs
      rcases List.mem_cons.mp hs with h | h
      · subst h
        have h1 := foldl_fresh_mono rest (max acc (s + 1))
        have h2 : s + 1 ≤ max acc (s + 1) := Nat.le_max_right _ _
        show s < rest.foldl (fun a i => match i with
          | Instr.store sid _ => max a (sid + 1)
          | _ => a) (max acc (s + 1))
        omega
      · exact ih _ s h
    | other e =>
      rw [sidsOf_cons_other] at hs
      exact ih acc s hs

theorem initialFresh_gt (blk : List Instr) :
    ∀ s ∈ sidsOf blk, s < initialFresh blk :=
  fun s hs => initialFresh_aux blk 0 s hs

/-- Idempotence of `runOnBasicBlock` on well-formed blocks. -/
theorem runOnBasicBlock_idem (w : Bool) (blk : List Instr) (hwf : WFBlock blk) :
    runOnBasicBlock w (runOnBasicBlock w blk).1 =
      ((runOnBasicBlock w blk).1, false) := by
  obtain ⟨hnd, hsz⟩ := hwf
  obtain ⟨D, hD, hrepl⟩ := scan_replay w blk
    ⟨[], [], none, [], initialFresh blk, false⟩
    rfl
    (fun i hi => absurd hi (List.not_mem_nil i))
    (fun s d hm => absurd hm (List.not_mem_nil _))
    (by show (sidsOf ([] : List Instr) ++ sidsOf blk).Nodup
        rw [show sidsOf ([] : List Instr) = [] from rfl, List.nil_append]
        exact hnd)
    (fun s hs => absurd hs (List.not_mem_nil s))
    (fun s hs => initialFresh_gt blk s hs)
    hsz
    rfl
  have hout : (runOnBasicBlock w blk).1 =
      D ++ (flushRun w (blk.foldl (stepInstr w)
        ⟨[], [], none, [], initialFresh blk, false⟩)).pending := by
    show (flushRun w (blk.foldl (stepInstr w)
        ⟨[], [], none, [], initialFresh blk, false⟩)).committed ++
      (flushRun w (blk.foldl (stepInstr w)
        ⟨[], [], none, [], initialFresh blk, false⟩)).pending = _
    rw [flushRun_committed, hD]
    dsimp only
    rw [List.nil_append]
  have happ := hrepl
    ⟨[], [], none, [], initialFresh (runOnBasicBlock w blk).1, false⟩
    rfl (Or.inl ⟨rfl, rfl⟩)
  show scanOut w
      ⟨[], [], none, [], initialFresh (runOnBasicBlock w blk).1, false⟩
      (runOnBasicBlock w blk).1 = ((runOnBasicBlock w blk).1, false)
  rw [hout] at happ ⊢
  rw [happ]
  simp

/-- C7: the transform is idempotent.  On any well-formed function (distinct
store instructions, no zero-sized store values), re-running `runOnFunction`
on its own output returns the output unchanged with `changed = false`. -/
theorem transform_is_idempotent (isWasm : Bool) (F : Func) (hwf : WFFunc F) :
    runOnFunction isWasm (runOnFunction isWasm F).1 =
      ((runOnFunction isWasm F).1, false) := by
  unfold runOnFunction
  dsimp only
  have hblk : ∀ b ∈ (F.blocks.map (runOnBasicBlockGated isWasm
      F.sectionIsAsmjs)).map Prod.fst,
      runOnBasicBlockGated isWasm F.sectionIsAsmjs b = (b, false) := by
    intro b hb
    obtain ⟨r, hr, hrb⟩ := List.mem_map.mp hb
    obtain ⟨blk0, hblk0, hrblk⟩ := List.mem_map.mp hr
    by_cases hs : F.sectionIsAsmjs
    · have hb2 : b = (runOnBasicBlock isWasm blk0).1 := by
        rw [← hrb, ← hrblk]
        unfold runOnBasicBlockGated
        rw [if_pos hs]
      unfold runOnBasicBlockGated
      rw [if_pos hs, hb2]
      exact runOnBasicBlock_idem isWasm blk0 (hwf blk0 hblk0)
    · unfold runOnBasicBlockGated
      rw [if_neg hs]
  have hmapeq : ((F.blocks.map (runOnBasicBlockGated isWasm
      F.sectionIsAsmjs)).map Prod.fst).map
        (runOnBasicBlockGated isWasm F.sectionIsAsmjs) =
      ((F.blocks.map (runOnBasicBlockGated isWasm F.sectionIsAsmjs)).map
        Prod.fst).map (fun b => (b, false)) :=
    List.map_congr_left hblk
  rw [hmapeq]
  simp [List.map_map, Function.comp]

theorem wfBlock_of_all (blk : List Instr)
    (h1 : (sidsOf blk).Nodup)
    (h2 : blk.all (fun i => match i with
      | Instr.store _ sd => decide (1 ≤ getTypeAllocSize sd.val.ty)
      | _ => true) = true) : WFBlock blk := by
  refine ⟨h1, ?_⟩
  intro sid sd hm
  have h3 := List.all_eq_true.mp h2 _ hm
  simpa using h3

theorem transform_is_idempotent_witness :
    WFFunc ⟨true, [scenarioABlock]⟩ ∧
    runOnFunction true (runOnFunction true ⟨true, [scenarioABlock]⟩).1 =
      ((runOnFunction true ⟨true, [scenarioABlock]⟩).1, false) := by
  have hwf : WFFunc ⟨true, [scenarioABlock]⟩ := by
    intro blk hblk
    rw [List.mem_singleton.mp hblk]
    exact wfBlock_of_all scenarioABlock (by decide) (by decide)
  exact ⟨hwf, transform_is_idempotent true _ hwf⟩

end StoreMerging
